import Mathlib

/-!
# A verification model of the `trie` package (trie-mux)

This file is a shallow embedding, in Lean 4, of `trie.go` from the
trie-mux repository: a tree based URL path router.  Go strings are
modelled as `List Char` (the package only manipulates paths
byte/char-wise); the Go standard-library string functions the code uses
(`strings.Split`, `strings.Join`, `strings.TrimPrefix`,
`strings.Contains`, `strings.Replace`, `strings.ToLower`) are given as
small recursive functions with the same behaviour on the inputs the
code feeds them.  Go's `regexp` engine is external to the repository:
a compiled `*regexp.Regexp` is determined by its source text (which the
code also reads back via `regex.String()`), so a `Node` stores the
regex source text and every function that runs a regex test takes an
explicit `reTest : Str → Str → Bool` argument modelling
`regexp.MatchString` (first argument: the expression's source text,
second: the string tested).  Functions that can `panic` in Go return
`Option` (`none` = panic).

Maps (`map[string]*Node`, `map[string]string`) are modelled as
association lists with unique keys; the Go code never iterates over
these maps, so only lookup and store are needed.
-/

/-- Go `string`, as its character list. -/
abbrev Str := List Char

/-- Shorthand for `String.data`, to write `Str` literals. -/
def str (s : String) : Str := s.data

/-- Association-list read, models Go map indexing `m[k]` (with `none` for
the zero value `nil`). -/
def lookupL {α : Type} : List (Str × α) → Str → Option α
  | [], _ => none
  | (k', v) :: rest, k => if k' = k then some v else lookupL rest k

/-- Association-list store, models Go map assignment `m[k] = v`:
replaces the binding if the key is present, otherwise appends it. -/
def mapSet {α : Type} : List (Str × α) → Str → α → List (Str × α)
  | [], k, v => [(k, v)]
  | (k', v') :: rest, k, v =>
    if k' = k then (k, v) :: rest else (k', v') :: mapSet rest k v

/-- Models `strings.ToLower` (the package only meets ASCII here). -/
def toLowerStr (s : Str) : Str := s.map Char.toLower

/-- Models `strings.TrimPrefix(s, "/")`. -/
def trimLeadingSlash : Str → Str
  | '/' :: rest => rest
  | s => s

/-- Models `strings.Split(s, "/")`: `""` yields `[""]`, and a separator at
either end yields an empty fragment there. -/
def splitSlash : Str → List Str
  | [] => [[]]
  | c :: rest =>
    if c = '/' then [] :: splitSlash rest
    else
      match splitSlash rest with
      | [] => [[c]]
      | f :: fs => (c :: f) :: fs

/-- Models `strings.Join(frags, "/")`. -/
def joinSlash : List Str → Str
  | [] => []
  | [f] => f
  | f :: rest => f ++ '/' :: joinSlash rest

/-- Models `strings.Contains(s, "//")`. -/
def containsDSlash : Str → Bool
  | c1 :: c2 :: rest => (c1 = '/' && c2 = '/') || containsDSlash (c2 :: rest)
  | _ => false

/-- Models `strings.Replace(s, "//", "/", -1)`: replaces every
non-overlapping occurrence of `//` by `/`, scanning left to right. -/
def replaceDSlash : Str → Str
  | [] => []
  | [c] => [c]
  | c1 :: c2 :: rest =>
    if c1 = '/' ∧ c2 = '/' then '/' :: replaceDSlash rest
    else c1 :: replaceDSlash (c2 :: rest)

theorem replaceDSlash_length_le (s : Str) : (replaceDSlash s).length ≤ s.length := by
  induction s using replaceDSlash.induct with
  | case1 => simp [replaceDSlash]
  | case2 c => simp [replaceDSlash]
  | case3 c1 c2 rest h ih =>
    rw [replaceDSlash, if_pos h]
    simp only [List.length_cons]
    omega
  | case4 c1 c2 rest h ih =>
    rw [replaceDSlash, if_neg h]
    simp only [List.length_cons] at ih ⊢
    omega

theorem replaceDSlash_length_lt (s : Str) (h : containsDSlash s = true) :
    (replaceDSlash s).length < s.length := by
  induction s using replaceDSlash.induct with
  | case1 => simp [containsDSlash] at h
  | case2 c => simp [containsDSlash] at h
  | case3 c1 c2 rest hp ih =>
    rw [replaceDSlash, if_pos hp]
    have := replaceDSlash_length_le rest
    simp only [List.length_cons]
    omega
  | case4 c1 c2 rest hp ih =>
    rw [containsDSlash] at h
    rcases Bool.or_eq_true_iff.mp h with h' | h'
    · exact absurd ⟨by simpa using (Bool.and_eq_true_iff.mp h').1,
        by simpa using (Bool.and_eq_true_iff.mp h').2⟩ hp
    · rw [replaceDSlash, if_neg hp]
      have := ih h'
      simp only [List.length_cons] at this ⊢
      omega

/-- Models `fixPath` from `trie.go`: repeatedly collapse `//` into `/`
until none is left. -/
def fixPath (path : Str) : Str :=
  if h : containsDSlash path then fixPath (replaceDSlash path)
  else path
termination_by path.length
decreasing_by exact replaceDSlash_length_lt path h

/-- A word character, `\w` = `[0-9A-Za-z_]`. -/
def isWordChar (c : Char) : Bool :=
  ('0' ≤ c && c ≤ '9') || ('A' ≤ c && c ≤ 'Z') || ('a' ≤ c && c ≤ 'z') || c = '_'

/-- Models `wordReg.MatchString`, i.e. the regexp `^\w+$`. -/
def isWordStr (s : Str) : Bool := !s.isEmpty && s.all isWordChar

/-- Models `doubleColonReg.MatchString`, i.e. the regexp `^::\w*$`. -/
def isDoubleColon : Str → Bool
  | ':' :: ':' :: rest => rest.all isWordChar
  | _ => false

/-- Models `strings.IndexRune(s, c)`: index of the first occurrence, or
`none` for Go's `-1`. -/
def indexOfChar (s : Str) (c : Char) : Option Nat :=
  match s with
  | [] => none
  | c' :: rest =>
    if c' = c then some 0
    else (indexOfChar rest c).map (· + 1)

/-- One tree vertex (`Node` in `trie.go`).  The Go struct's `parentNode`
back-reference is omitted: it is written during construction but never
read by `Define`, `Match` or any other function of the package, and a
cyclic pointer has no counterpart in a purely functional tree.
`regex` holds the source text of the compiled expression (Go reads it
back with `regex.String()`); handler payloads are opaque to the trie
(`interface{}`) and are modelled by `Nat`. -/
inductive Node where
  | mk
    (allowMethods : Str)
    (methods : List (Str × Nat))
    (pattern : Str)
    (name : Str)
    (endpoint : Bool)
    (wildcard : Bool)
    (regex : Option Str)
    (varyChild : Option Node)
    (literalChildren : List (Str × Node))

def Node.allowMethods : Node → Str | .mk a _ _ _ _ _ _ _ _ => a
def Node.methods : Node → List (Str × Nat) | .mk _ m _ _ _ _ _ _ _ => m
def Node.pattern : Node → Str | .mk _ _ p _ _ _ _ _ _ => p
def Node.name : Node → Str | .mk _ _ _ n _ _ _ _ _ => n
def Node.endpoint : Node → Bool | .mk _ _ _ _ e _ _ _ _ => e
def Node.wildcard : Node → Bool | .mk _ _ _ _ _ w _ _ _ => w
def Node.regex : Node → Option Str | .mk _ _ _ _ _ _ r _ _ => r
def Node.varyChild : Node → Option Node | .mk _ _ _ _ _ _ _ v _ => v
def Node.literalChildren : Node → List (Str × Node) | .mk _ _ _ _ _ _ _ _ l => l

/-- The zero-value node `&Node{literalChildren: …, Methods: …}` that
`parseNode` (and `New`, for the root) allocates. -/
def blankNode : Node := .mk [] [] [] [] false false none none []

/-- Store a literal child: `parent.literalChildren[k] = c`. -/
def Node.insertLit : Node → Str → Node → Node
  | .mk a m p n e w r v l, k, c => .mk a m p n e w r v (mapSet l k c)

/-- Set the dynamic child: `parent.varyChild = c`. -/
def Node.setVary : Node → Node → Node
  | .mk a m p n e w r _ l, c => .mk a m p n e w r (some c) l

/-- Models `child.endpoint = true` (done by `defineNode` on the last fragment). -/
def Node.markEndpoint : Node → Node
  | .mk a m p n _ w r v l => .mk a m p n true w r v l

/-- Models `node.pattern = pattern` (done by `Define` on the returned node). -/
def Node.setPattern : Node → Str → Node
  | .mk a m _ n e w r v l, p => .mk a m p n e w r v l

/-- A child edge: the key under which a child hangs off its parent
(either a literal-children map key or the single dynamic-child slot).
A node of the tree is identified by the edge path from the root, which
plays the role of the Go node pointer. -/
inductive Edge where
  | lit (k : Str)
  | vary
deriving DecidableEq

/-- Follow an edge path down the tree (resolve a "node pointer"). -/
def Node.get? : Node → List Edge → Option Node
  | n, [] => some n
  | n, .lit k :: p =>
    match lookupL n.literalChildren k with
    | some c => c.get? p
    | none => none
  | n, .vary :: p =>
    match n.varyChild with
    | some c => c.get? p
    | none => none

/-- Rewrite the node at an edge path (models mutation through a Go
pointer into the tree); identity when the path dangles. -/
def Node.modifyAt : Node → List Edge → (Node → Node) → Node
  | n, [], f => f n
  | n, .lit k :: p, f =>
    match lookupL n.literalChildren k with
    | some c => n.insertLit k (c.modifyAt p f)
    | none => n
  | n, .vary :: p, f =>
    match n.varyChild with
    | some c => n.setVary (c.modifyAt p f)
    | none => n

/-- Write a child at an edge. -/
def Node.setChildAt (n : Node) : Edge → Node → Node
  | .lit k, c => n.insertLit k c
  | .vary, c => n.setVary c

/-- Read the child at an edge. -/
def Node.getChildAt (n : Node) : Edge → Option Node
  | .lit k => lookupL n.literalChildren k
  | .vary => n.varyChild

/-- Models `Trie` from `trie.go`: the three options and the root node. -/
structure Trie where
  ignoreCase : Bool
  fpr : Bool
  tsr : Bool
  root : Node

/-- Models `Options` from `trie.go`. -/
structure Options where
  IgnoreCase : Bool
  FixedPathRedirect : Bool
  TrailingSlashRedirect : Bool

/-- Models `defaultOptions` from `trie.go`: everything enabled. -/
def defaultOptions : Options :=
  { IgnoreCase := true, FixedPathRedirect := true, TrailingSlashRedirect := true }

/-- Models `New(opts)` from `trie.go` (`New()` is `New defaultOptions`). -/
def New (opts : Options) : Trie :=
  { ignoreCase := opts.IgnoreCase
    fpr := opts.FixedPathRedirect
    tsr := opts.TrailingSlashRedirect
    root := blankNode }

/-- Models `Matched` from `trie.go`.  The Go zero value has `Params == nil`;
`nil` and the empty map are observationally equal for this package
(`Match` only writes and the caller only reads by key), so both are
`[]`. -/
structure Matched where
  Node : Option Node
  Params : List (Str × Str)
  FPR : Str
  TSR : Str

/-- The all-empty `&Matched{}` that `Match` starts from. -/
def emptyMatched : Matched := ⟨none, [], [], []⟩

/-- The normalized fragment `_frag` computed at the top of `parseNode`:
the escaped-literal colon is stripped, then the fragment is case-folded
when `ignoreCase` is set. -/
def normFrag (frag : Str) (ignoreCase : Bool) : Str :=
  let f1 := if isDoubleColon frag then frag.drop 1 else frag
  if ignoreCase then toLowerStr f1 else f1

/-- The trailing-character analysis of `parseNode` on `name := frag[1:]`
of a `:`-fragment: yields `(name, regex source text, wildcard flag)`
(the regex text is `[]` when there is none, matching the Go `regex`
string variable); `none` models the `panic` on an empty `(...)` group
or the index-out-of-range on the fragment `":"`. -/
def parseColon (name0 : Str) : Option (Str × Str × Bool) :=
  match name0.getLast? with
  | none => none
  | some trailing =>
    if trailing = ')' then
      match indexOfChar name0 '(' with
      | some index =>
        if index > 0 then
          let regex := (name0.drop (index + 1)).dropLast
          if regex ≠ [] then some (name0.take index, regex, false)
          else none
        else some (name0, [], false)
      | none => some (name0, [], false)
    else if trailing = '*' then some (name0.dropLast, [], true)
    else some (name0, [], false)

/-- Models `parseNode(parent, frag, ignoreCase)` from `trie.go`.  Returns
`(updated parent, edge of the child, child)`; `none` models a `panic`. -/
def parseNode (parent : Node) (frag : Str) (ignoreCase : Bool) :
    Option (Node × Edge × Node) :=
  match lookupL parent.literalChildren (normFrag frag ignoreCase) with
  | some c => some (parent, .lit (normFrag frag ignoreCase), c)
  | none =>
    if frag = [] then
      some (parent.insertLit frag blankNode, .lit frag, blankNode)
    else if isDoubleColon frag then
      some (parent.insertLit (normFrag frag ignoreCase) blankNode,
        .lit (normFrag frag ignoreCase), blankNode)
    else if frag.head? = some ':' then
      match parseColon (frag.drop 1) with
      | none => none
      | some (name, regex, wild) =>
        if !isWordStr name then none
        else
          let node : Node :=
            .mk [] [] [] name false wild
              (if regex ≠ [] then some regex else none) none []
          match parent.varyChild with
          | some child =>
            if child.name ≠ name ∨ child.wildcard ≠ wild then none
            else
              match child.regex with
              | some r =>
                if r ≠ regex then none else some (parent, .vary, child)
              | none => some (parent, .vary, child)
          | none => some (parent.setVary node, .vary, node)
    else if frag.head? = some '*' ∨ frag.head? = some '(' ∨ frag.head? = some ')' then
      none
    else
      some (parent.insertLit (normFrag frag ignoreCase) blankNode,
        .lit (normFrag frag ignoreCase), blankNode)

/-- Models `defineNode(parent, frags, ignoreCase)` from `trie.go`.  Returns the
updated subtree and the edge path of the defined node; `none` models a
`panic` (`frags` is never `[]` coming from `Define`, since
`strings.Split` never returns an empty slice). -/
def defineNode (parent : Node) (frags : List Str) (ignoreCase : Bool) :
    Option (Node × List Edge) :=
  match frags with
  | [] => none
  | frag :: rest =>
    match parseNode parent frag ignoreCase with
    | none => none
    | some (p1, k, child) =>
      if rest.isEmpty then
        some (p1.setChildAt k child.markEndpoint, [k])
      else if child.wildcard then none
      else
        match defineNode child rest ignoreCase with
        | none => none
        | some (child', sub) => some (p1.setChildAt k child', k :: sub)

/-- The update `Define` applies to the endpoint node it is about to
return: `if node.pattern == "" { node.pattern = pattern }`. -/
def setPatternIfEmpty (pattern : Str) (n : Node) : Node :=
  if n.pattern = [] then n.setPattern pattern else n

/-- Models `Define(pattern)` from `trie.go`.  Returns the updated trie and the
edge path of the endpoint node (the returned `*Node`); `none` models a
`panic`. -/
def Define (t : Trie) (pattern : Str) : Option (Trie × List Edge) :=
  if containsDSlash pattern then none
  else
    match defineNode t.root (splitSlash (trimLeadingSlash pattern)) t.ignoreCase with
    | none => none
    | some (root1, path) =>
      some ({ t with root := root1.modifyAt path (setPatternIfEmpty pattern) }, path)

/-- Models `matchNode(parent, frag)` from `trie.go`; `reTest` models
`regexp.MatchString` on the stored expression's source text. -/
def matchNode (reTest : Str → Str → Bool) (parent : Node) (frag : Str) :
    Option Node × Bool :=
  match lookupL parent.literalChildren frag with
  | some c => (some c, false)
  | none =>
    match parent.varyChild with
    | none => (none, false)
    | some c =>
      match c.regex with
      | some r => if reTest r frag then (some c, true) else (none, false)
      | none => (some c, true)

/-- The code after `Match`'s fragment loop (reached by falling off the
loop or by the catch-all `break`). -/
def matchEpilogue (tsr fpr : Bool) (path _path : Str) (parent : Node)
    (res : Matched) : Matched :=
  if parent.endpoint then
    let res := { res with Node := some parent }
    if fpr && decide (path ≠ _path) then { res with FPR := path, Node := none }
    else res
  else if tsr && (lookupL parent.literalChildren []).isSome then
    let res := { res with TSR := path ++ ['/'] }
    if fpr && decide (path ≠ _path) then { res with FPR := res.TSR, TSR := [] }
    else res
  else res

/-- Models the `for i, frag := range frags` loop of `Match`.  `rest = []` means the
current fragment is the last (`len(frags) == i+1`), and
`frag :: rest` is `frags[i:]`. -/
def matchFrags (reTest : Str → Str → Bool) (tsr fpr ignoreCase : Bool)
    (path _path : Str) : Node → List Str → Matched → Matched
  | parent, [], res => matchEpilogue tsr fpr path _path parent res
  | parent, frag :: rest, res =>
    let f := if ignoreCase then toLowerStr frag else frag
    match matchNode reTest parent f with
    | (none, _) =>
      if tsr && decide (frag = []) && rest.isEmpty && parent.endpoint then
        let res := { res with TSR := path.dropLast }
        if fpr && decide (path ≠ _path) then { res with FPR := res.TSR, TSR := [] }
        else res
      else res
    | (some node, named) =>
      if named then
        if node.wildcard then
          matchEpilogue tsr fpr path _path node
            { res with Params := mapSet res.Params node.name (joinSlash (frag :: rest)) }
        else
          matchFrags reTest tsr fpr ignoreCase path _path node rest
            { res with Params := mapSet res.Params node.name frag }
      else
        matchFrags reTest tsr fpr ignoreCase path _path node rest res

/-- Models `Match(path)` from `trie.go`. -/
def Match (reTest : Str → Str → Bool) (t : Trie) (path0 : Str) : Matched :=
  let _path := path0
  let path := if t.fpr then fixPath _path else _path
  let frags := splitSlash (trimLeadingSlash path)
  matchFrags reTest t.tsr t.fpr t.ignoreCase path _path t.root frags emptyMatched

/-! ## State-passing form of `Match`, for the frame property

`Match` in Go walks the tree through node pointers; a mutation would be
a write through one of them.  The state-passing translation below
threads the trie value through the walk and returns it at every return
point of the Go function, mirroring the source statement by statement;
since the source contains no assignment to any node field or child map,
the threaded trie is returned unchanged, which is what the frame
theorem states. -/

/-- State-passing translation of the `Match` fragment loop. -/
def matchFragsS (reTest : Str → Str → Bool) (tsr fpr ignoreCase : Bool)
    (path _path : Str) : Trie → Node → List Str → Matched → Matched × Trie
  | σ, parent, [], res => (matchEpilogue tsr fpr path _path parent res, σ)
  | σ, parent, frag :: rest, res =>
    let f := if ignoreCase then toLowerStr frag else frag
    match matchNode reTest parent f with
    | (none, _) =>
      if tsr && decide (frag = []) && rest.isEmpty && parent.endpoint then
        let res := { res with TSR := path.dropLast }
        if fpr && decide (path ≠ _path) then
          ({ res with FPR := res.TSR, TSR := [] }, σ)
        else (res, σ)
      else (res, σ)
    | (some node, named) =>
      if named then
        if node.wildcard then
          (matchEpilogue tsr fpr path _path node
            { res with Params := mapSet res.Params node.name (joinSlash (frag :: rest)) }, σ)
        else
          matchFragsS reTest tsr fpr ignoreCase path _path σ node rest
            { res with Params := mapSet res.Params node.name frag }
      else
        matchFragsS reTest tsr fpr ignoreCase path _path σ node rest res

/-- State-passing translation of `Match(path)`. -/
def MatchS (reTest : Str → Str → Bool) (σ : Trie) (path0 : Str) : Matched × Trie :=
  let _path := path0
  let path := if σ.fpr then fixPath _path else _path
  let frags := splitSlash (trimLeadingSlash path)
  matchFragsS reTest σ.tsr σ.fpr σ.ignoreCase path _path σ σ.root frags emptyMatched

/-! ## Generic computation lemmas -/

theorem fixPath_of_not_contains (p : Str) (h : containsDSlash p = false) :
    fixPath p = p := by
  rw [fixPath]; simp [h]

theorem fixPath_step (p : Str) (h : containsDSlash p = true) :
    fixPath p = fixPath (replaceDSlash p) := by
  rw [fixPath]; simp [h]

theorem containsDSlash_of_no_slash (s : Str) (h : '/' ∉ s) :
    containsDSlash s = false := by
  induction s with
  | nil => rfl
  | cons c rest ih =>
    have hc : c ≠ '/' := fun hc => h (hc ▸ List.mem_cons_self c rest)
    have hr : '/' ∉ rest := fun hm => h (List.mem_cons_of_mem c hm)
    cases rest with
    | nil => rfl
    | cons c2 rest2 =>
      rw [containsDSlash]
      have : (c = '/') = False := by simp [hc]
      simp [this, ih hr]

theorem containsDSlash_slash_cons (v : Str) (h : '/' ∉ v) :
    containsDSlash ('/' :: v) = false := by
  cases v with
  | nil => rfl
  | cons c rest =>
    rw [containsDSlash]
    have hc : c ≠ '/' := fun hc => h (hc ▸ List.mem_cons_self c rest)
    have hr : '/' ∉ (c :: rest) := h
    simp [hc, containsDSlash_of_no_slash _ hr]

theorem splitSlash_ne_nil (s : Str) : splitSlash s ≠ [] := by
  cases s with
  | nil => simp [splitSlash]
  | cons c rest =>
    rw [splitSlash]
    split
    · simp
    · split <;> simp

theorem splitSlash_slash_cons (s : Str) : splitSlash ('/' :: s) = [] :: splitSlash s := by
  rw [splitSlash]; simp

theorem splitSlash_cons_of_ne (c : Char) (s : Str) (h : c ≠ '/') (f : Str)
    (fs : List Str) (hs : splitSlash s = f :: fs) :
    splitSlash (c :: s) = (c :: f) :: fs := by
  rw [splitSlash, if_neg h, hs]

theorem splitSlash_no_slash (s : Str) (h : '/' ∉ s) : splitSlash s = [s] := by
  induction s with
  | nil => rfl
  | cons c rest ih =>
    have hc : c ≠ '/' := fun hc => h (hc ▸ List.mem_cons_self c rest)
    have hr : '/' ∉ rest := fun hm => h (List.mem_cons_of_mem c hm)
    exact splitSlash_cons_of_ne c rest hc rest [] (ih hr)

/-! ## Regex-engine instances used in concrete scenarios -/

/-- Stand-in for the regex engine in tries that contain no
regex-constrained node: it is never consulted there. -/
def reNone : Str → Str → Bool := fun _ _ => false

/-- Models `regexp.MatchString` of the Go expression `^[A-Z]+$` (the
only expression compiled into the tries this function is used with):
a non-empty string of ASCII capitals. -/
def reUpperABC : Str → Str → Bool :=
  fun _ s => decide (s ≠ []) && s.all (fun c => 'A' ≤ c && c ≤ 'Z')

/-! ## C10 — a fixed-path redirect keeps the walked parameters -/

/-- Trie with `/a/:x` registered, all options enabled. -/
def trieC10 : Trie :=
  ((Define (New defaultOptions) (str "/a/:x")).map Prod.fst).getD (New defaultOptions)

/-- C10: when `Match` reports a fixed-path redirect after a walk through a
dynamic child (here `Match("/a//b")` on `/a/:x`, collapsed to `/a/b`),
the result still carries the parameter binding accumulated during the
walk: `FPR = "/a/b"` and `Params = {x: "b"}` coexist in one result. -/
theorem C10_fpr_keeps_params :
    Match reNone trieC10 (str "/a//b")
      = { Node := none, Params := [(str "x", str "b")], FPR := str "/a/b", TSR := [] }
    ∧ (Match reNone trieC10 (str "/a//b")).FPR ≠ []
    ∧ (Match reNone trieC10 (str "/a//b")).Params ≠ [] := by
  have h : fixPath (str "/a//b") = str "/a/b" := by
    rw [fixPath_step _ (by decide),
      show replaceDSlash (str "/a//b") = str "/a/b" from by decide,
      fixPath_of_not_contains _ (by decide)]
  refine ⟨?_, ?_, ?_⟩ <;> simp only [Match, h]
  · rfl
  · decide
  · decide

/-! ## C2 — a plain named parameter and the empty fragment -/

/-- Trie with `/api/:type` registered, all options enabled. -/
def trieC2 : Trie :=
  ((Define (New defaultOptions) (str "/api/:type")).map Prod.fst).getD (New defaultOptions)

/-- C2 counterexample: with `/api/:type` registered (all options on),
`Match("/api/")` is accepted as a direct match — the vary child accepts
the empty final fragment and binds `type` to the empty string — contrary
to the claim that a plain named parameter only matches a non-empty run. -/
theorem C2_counterexample :
    (Define (New defaultOptions) (str "/api/:type")).isSome = true
    ∧ Match reNone trieC2 (str "/api/")
        = { Node := (Match reNone trieC2 (str "/api/")).Node,
            Params := [(str "type", [])], FPR := [], TSR := [] }
    ∧ (Match reNone trieC2 (str "/api/")).Node.isSome = true := by
  have h : fixPath (str "/api/") = str "/api/" :=
    fixPath_of_not_contains _ (by decide)
  refine ⟨by decide, ?_, ?_⟩ <;> simp only [Match, h] <;> rfl

theorem cDS_step (c1 c2 : Char) (rest : Str) (h : (c1 = '/' && c2 = '/') = false) :
    containsDSlash (c1 :: c2 :: rest) = containsDSlash (c2 :: rest) := by
  rw [containsDSlash, h, Bool.false_or]

theorem decide_ne_self (y : Str) : decide (y ≠ y) = false := by simp

/-- C2 amended: a plain named parameter matches any — possibly empty —
run of non-separator characters: with `/api/:type` registered,
`Match("/api/" ++ v)` is accepted for every separator-free `v`,
binding `type` to `v`; in particular `Match("/api/")` binds `type` to
the empty string. -/
theorem C2_param_matches_any_run (v : Str) (h : '/' ∉ v) :
    (Match reNone trieC2 ('/' :: 'a' :: 'p' :: 'i' :: '/' :: v)).Node.isSome = true
    ∧ (Match reNone trieC2 ('/' :: 'a' :: 'p' :: 'i' :: '/' :: v)).Params
        = [(str "type", v)] := by
  have hnc : containsDSlash ('/' :: 'a' :: 'p' :: 'i' :: '/' :: v) = false := by
    rw [cDS_step _ _ _ (by decide), cDS_step _ _ _ (by decide), cDS_step _ _ _ (by decide),
      cDS_step _ _ _ (by decide), containsDSlash_slash_cons v h]
  have hfix := fixPath_of_not_contains _ hnc
  have hsv : splitSlash v = [v] := splitSlash_no_slash v h
  have hs : splitSlash ('a' :: 'p' :: 'i' :: '/' :: v) = [['a','p','i'], v] := by
    rw [splitSlash_cons_of_ne 'a' _ (by decide) ['p','i'] [v]
      (splitSlash_cons_of_ne 'p' _ (by decide) ['i'] [v]
        (splitSlash_cons_of_ne 'i' _ (by decide) [] [v]
          (by rw [splitSlash_slash_cons, hsv])))]
  constructor <;>
  · simp only [Match, show trieC2.fpr = true from rfl, show trieC2.tsr = true from rfl,
      show trieC2.ignoreCase = true from rfl, if_true, hfix, trimLeadingSlash, hs]
    simp only [matchFrags, matchNode, matchEpilogue, decide_ne_self]
    rfl

/-- C2 witness: the amended theorem applied to the empty run. -/
theorem C2_witness :
    ('/' ∉ ([] : Str))
    ∧ ((Match reNone trieC2 ('/' :: 'a' :: 'p' :: 'i' :: '/' :: ([] : Str))).Node.isSome = true
       ∧ (Match reNone trieC2 ('/' :: 'a' :: 'p' :: 'i' :: '/' :: ([] : Str))).Params
           = [(str "type", [])]) :=
  ⟨by decide, C2_param_matches_any_run [] (by decide)⟩

/-! ## C1 — which text the regex of a dynamic child is tested against -/

/-- Options with case-insensitive matching on and both redirect
heuristics off. -/
def optsC1 : Options :=
  { IgnoreCase := true, FixedPathRedirect := false, TrailingSlashRedirect := false }

/-- Trie with `/a/:id(^[A-Z]+$)` registered, IgnoreCase enabled. -/
def trieC1 : Trie :=
  ((Define (New optsC1) (str "/a/:id(^[A-Z]+$)")).map Prod.fst).getD (New optsC1)

/-- C1 counterexample: with IgnoreCase on and `/a/:id(^[A-Z]+$)`
registered, the raw fragment `ABC` satisfies the expression, yet
`Match("/a/ABC")` is a full miss, because the code hands the
case-folded fragment `abc` — not the original-case text — to the regex
test.  Under the claim (regex tested against the original-case
fragment) this call would have matched. -/
theorem C1_counterexample :
    (Define (New optsC1) (str "/a/:id(^[A-Z]+$)")).isSome = true
    ∧ reUpperABC (str "^[A-Z]+$") (str "ABC") = true
    ∧ reUpperABC (str "^[A-Z]+$") (toLowerStr (str "ABC")) = false
    ∧ (Match reUpperABC trieC1 (str "/a/ABC")).Node.isSome = false
    ∧ (Match reUpperABC trieC1 (str "/a/ABC")).Params = []
    ∧ (Match reUpperABC trieC1 (str "/a/ABC")).FPR = []
    ∧ (Match reUpperABC trieC1 (str "/a/ABC")).TSR = [] := by
  decide

/-- The `:id(^[A-Z]+$)` endpoint node of `trieC1`. -/
def nodeC1id : Node :=
  .mk [] [] (str "/a/:id(^[A-Z]+$)") (str "id") true false (some (str "^[A-Z]+$")) none []

/-- The `a` literal node of `trieC1`. -/
def nodeC1a : Node := .mk [] [] [] [] false false none (some nodeC1id) []

/-- C1 amended: with IgnoreCase enabled, the regex of a dynamic child is
tested against the case-folded fragment (the same folded text used for
literal-child lookup), never the original-case text: for every regex
engine `re` and separator-free fragment `v`, `Match("/a/" ++ v)` on
`trieC1` succeeds exactly when `re` accepts the *lowercased* `v`. -/
theorem C1_regex_tested_on_folded (re : Str → Str → Bool) (v : Str) (h : '/' ∉ v) :
    (Match re trieC1 ('/' :: 'a' :: '/' :: v)).Node.isSome
      = re (str "^[A-Z]+$") (toLowerStr v) := by
  have hsv : splitSlash v = [v] := splitSlash_no_slash v h
  have hs : splitSlash ('a' :: '/' :: v) = [['a'], v] :=
    splitSlash_cons_of_ne 'a' _ (by decide) [] [v] (by rw [splitSlash_slash_cons, hsv])
  have hroot : trieC1.root = .mk [] [] [] [] false false none none [(['a'], nodeC1a)] := rfl
  have hm1 : matchNode re (Node.mk [] [] [] [] false false none none [(['a'], nodeC1a)])
      (toLowerStr ['a']) = (some nodeC1a, false) := rfl
  have hm2 : ∀ w, matchNode re nodeC1a w
      = if re (str "^[A-Z]+$") w = true then (some nodeC1id, true) else (none, false) :=
    fun _ => rfl
  simp only [Match, show trieC1.fpr = false from rfl, show trieC1.ignoreCase = true from rfl,
    show trieC1.tsr = false from rfl, Bool.false_eq_true, if_false, reduceIte,
    trimLeadingSlash, hs, hroot]
  simp only [matchFrags, hm1, hm2, reduceIte]
  cases hre : re (str "^[A-Z]+$") (toLowerStr v) with
  | false => simp only [hre, Bool.false_eq_true, reduceIte]; rfl
  | true => simp only [hre, reduceIte]; rfl

/-- C1 witness: the amended theorem applied to the fragment `ABC` with
the modelled `^[A-Z]+$` engine. -/
theorem C1_witness :
    ('/' ∉ str "ABC")
    ∧ (Match reUpperABC trieC1 ('/' :: 'a' :: '/' :: str "ABC")).Node.isSome
        = reUpperABC (str "^[A-Z]+$") (toLowerStr (str "ABC")) :=
  ⟨by decide, C1_regex_tested_on_folded reUpperABC (str "ABC") (by decide)⟩

/-! ## C3 — a match, an FPR and a TSR are mutually exclusive -/

/-- At most one of the three outcomes of a `Match` call is present: a
matched node, a fixed-path-redirect target, a trailing-slash-redirect
target. -/
def atMostOneOutcome (m : Matched) : Prop :=
  ¬(m.Node.isSome = true ∧ m.FPR ≠ []) ∧ ¬(m.Node.isSome = true ∧ m.TSR ≠ [])
    ∧ ¬(m.FPR ≠ [] ∧ m.TSR ≠ [])

theorem matchEpilogue_excl (tsr fpr : Bool) (path _path : Str) (parent : Node)
    (res : Matched) (h1 : res.Node = none) (h2 : res.FPR = []) (h3 : res.TSR = []) :
    atMostOneOutcome (matchEpilogue tsr fpr path _path parent res) := by
  unfold matchEpilogue atMostOneOutcome
  split_ifs <;> simp_all

theorem matchFrags_excl (re : Str → Str → Bool) (tsr fpr ic : Bool) (path _path : Str) :
    ∀ (frags : List Str) (parent : Node) (res : Matched),
      res.Node = none → res.FPR = [] → res.TSR = [] →
      atMostOneOutcome (matchFrags re tsr fpr ic path _path parent frags res)
  | [], parent, res, h1, h2, h3 => matchEpilogue_excl tsr fpr path _path parent res h1 h2 h3
  | frag :: rest, parent, res, h1, h2, h3 => by
    rw [matchFrags]
    rcases hmn : matchNode re parent (if ic then toLowerStr frag else frag) with ⟨nd | node, named⟩
    · simp only
      unfold atMostOneOutcome
      split_ifs <;> simp_all
    · simp only
      split_ifs with hn hw
      · exact matchEpilogue_excl tsr fpr path _path node _ h1 h2 h3
      · exact matchFrags_excl re tsr fpr ic path _path rest node _ h1 h2 h3
      · exact matchFrags_excl re tsr fpr ic path _path rest node res h1 h2 h3

/-- C3: for every trie (any option combination), regex engine and input
path, the `Matched` value returned by `Match` has at most one of
{`Node`, `FPR`, `TSR`} non-absent/non-empty — the three outcomes of a
call are mutually exclusive. -/
theorem C3_result_exclusive (re : Str → Str → Bool) (t : Trie) (p : Str) :
    atMostOneOutcome (Match re t p) := by
  unfold Match
  exact matchFrags_excl re t.tsr t.fpr t.ignoreCase _ _ _ t.root _ rfl rfl rfl

/-! ## C4 — a fixed-path redirect supersedes a trailing-slash redirect -/

theorem matchEpilogue_TSR_of_changed (tsr fpr : Bool) (path _path : Str) (parent : Node)
    (res : Matched) (hf : fpr = true) (hne : path ≠ _path) (h3 : res.TSR = []) :
    (matchEpilogue tsr fpr path _path parent res).TSR = [] := by
  unfold matchEpilogue
  split_ifs <;> simp_all

theorem matchFrags_TSR_of_changed (re : Str → Str → Bool) (tsr fpr ic : Bool)
    (path _path : Str) (hf : fpr = true) (hne : path ≠ _path) :
    ∀ (frags : List Str) (parent : Node) (res : Matched), res.TSR = [] →
      (matchFrags re tsr fpr ic path _path parent frags res).TSR = []
  | [], parent, res, h3 =>
    matchEpilogue_TSR_of_changed tsr fpr path _path parent res hf hne h3
  | frag :: rest, parent, res, h3 => by
    rw [matchFrags]
    rcases hmn : matchNode re parent (if ic then toLowerStr frag else frag) with ⟨nd | node, named⟩
    · simp only
      split_ifs <;> simp_all
    · simp only
      split_ifs with hn hw
      · exact matchEpilogue_TSR_of_changed tsr fpr path _path node _ hf hne h3
      · exact matchFrags_TSR_of_changed re tsr fpr ic path _path hf hne rest node _ h3
      · exact matchFrags_TSR_of_changed re tsr fpr ic path _path hf hne rest node res h3

/-- Trie with `/api/foo` registered, all options enabled. -/
def trieC4 : Trie :=
  ((Define (New defaultOptions) (str "/api/foo")).map Prod.fst).getD (New defaultOptions)

/-- C4: whenever duplicate-separator collapsing changed the path of a
`Match` call on a trie with FixedPathRedirect enabled, the result's TSR
field is empty — any trailing-slash redirect is superseded by the
fixed-path redirect; concretely, with `/api/foo` registered and all
options enabled, `Match("/api//foo")` yields FPR `/api/foo` (and no
TSR, although the collapse also changes the trailing structure), while
`Match("/api/foo/")` yields TSR `/api/foo`. -/
theorem C4_fpr_supersedes_tsr :
    (∀ (re : Str → Str → Bool) (t : Trie) (p : Str), t.fpr = true → fixPath p ≠ p →
      (Match re t p).TSR = [])
    ∧ Match reNone trieC4 (str "/api//foo")
        = { Node := none, Params := [], FPR := str "/api/foo", TSR := [] }
    ∧ Match reNone trieC4 (str "/api/foo/")
        = { Node := none, Params := [], FPR := [], TSR := str "/api/foo" } := by
  refine ⟨?_, ?_, ?_⟩
  · intro re t p hf hne
    have hM : Match re t p
        = matchFrags re t.tsr t.fpr t.ignoreCase (fixPath p) p t.root
          (splitSlash (trimLeadingSlash (fixPath p))) emptyMatched := by
      unfold Match
      rw [hf]
      rfl
    rw [hM]
    exact matchFrags_TSR_of_changed re t.tsr t.fpr t.ignoreCase (fixPath p) p hf hne
      (splitSlash (trimLeadingSlash (fixPath p))) t.root emptyMatched rfl
  · have h : fixPath (str "/api//foo") = str "/api/foo" := by
      rw [fixPath_step _ (by decide),
        show replaceDSlash (str "/api//foo") = str "/api/foo" from by decide,
        fixPath_of_not_contains _ (by decide)]
    simp only [Match, h]
    rfl
  · have h : fixPath (str "/api/foo/") = str "/api/foo/" :=
      fixPath_of_not_contains _ (by decide)
    simp only [Match, h]
    rfl

/-- C4 witness: the general clause applied to `Match("/a//b")` on
`trieC4` (whose path the collapse changes). -/
theorem C4_witness :
    (Match reNone trieC4 (str "/a//b")).TSR = [] := by
  refine C4_fpr_supersedes_tsr.1 reNone trieC4 (str "/a//b") rfl ?_
  rw [fixPath_step _ (by decide),
    show replaceDSlash (str "/a//b") = str "/a/b" from by decide,
    fixPath_of_not_contains _ (by decide)]
  decide

/-! ## C6 — literal children take precedence over the dynamic child -/

/-- Trie with both `/a/foo` and `/a/:x` registered, all options on. -/
def trieC6 : Trie :=
  let t1 := ((Define (New defaultOptions) (str "/a/foo")).map Prod.fst).getD
    (New defaultOptions)
  ((Define t1 (str "/a/:x")).map Prod.fst).getD t1

/-- C6: at every tree position, a literal child whose key equals the
(folded) fragment wins over the dynamic child — `matchNode` returns the
literal child (unnamed) whenever the lookup succeeds, and the dynamic
child is consulted only when it fails; concretely, with `/a/foo` and
`/a/:x` both registered, `Match("/a/foo")` lands on the `/a/foo` node
with no binding while `Match("/a/bar")` lands on `/a/:x`. -/
theorem C6_literal_precedence :
    (∀ (re : Str → Str → Bool) (parent : Node) (frag : Str) (c : Node),
      lookupL parent.literalChildren frag = some c →
      matchNode re parent frag = (some c, false))
    ∧ (∀ (re : Str → Str → Bool) (parent : Node) (frag : Str),
      (matchNode re parent frag).2 = true →
      lookupL parent.literalChildren frag = none)
    ∧ (Match reNone trieC6 (str "/a/foo")).Node.map Node.pattern = some (str "/a/foo")
    ∧ (Match reNone trieC6 (str "/a/foo")).Params = []
    ∧ (Match reNone trieC6 (str "/a/bar")).Node.map Node.pattern = some (str "/a/:x")
    ∧ (Match reNone trieC6 (str "/a/bar")).Params = [(str "x", str "bar")] := by
  refine ⟨?_, ?_, ?_, ?_, ?_, ?_⟩
  · intro re parent frag c h
    unfold matchNode
    rw [h]
  · intro re parent frag h
    cases hl : lookupL parent.literalChildren frag with
    | none => rfl
    | some c =>
      unfold matchNode at h
      rw [hl] at h
      simp at h
  · have h : fixPath (str "/a/foo") = str "/a/foo" := fixPath_of_not_contains _ (by decide)
    simp only [Match, h]; rfl
  · have h : fixPath (str "/a/foo") = str "/a/foo" := fixPath_of_not_contains _ (by decide)
    simp only [Match, h]; rfl
  · have h : fixPath (str "/a/bar") = str "/a/bar" := fixPath_of_not_contains _ (by decide)
    simp only [Match, h]; rfl
  · have h : fixPath (str "/a/bar") = str "/a/bar" := fixPath_of_not_contains _ (by decide)
    simp only [Match, h]; rfl

/-- A parent with a literal child under key `k` and a dynamic child. -/
def nodeC6w : Node :=
  .mk [] [] [] [] false false none (some blankNode) [(str "k", blankNode)]

/-- C6 witness: the precedence clause applied to a parent holding both a
literal child under `k` and a dynamic child. -/
theorem C6_witness :
    lookupL nodeC6w.literalChildren (str "k") = some blankNode
    ∧ matchNode reNone nodeC6w (str "k") = (some blankNode, false) :=
  ⟨rfl, C6_literal_precedence.1 reNone nodeC6w (str "k") blankNode rfl⟩

/-! ## C8 — no pattern may be defined through a catch-all node -/

/-- Trie with `/files/:fp*` registered, all options on. -/
def trieC8 : Trie :=
  ((Define (New defaultOptions) (str "/files/:fp*")).map Prod.fst).getD
    (New defaultOptions)

/-- C8: whenever the walk of `defineNode` reaches a catch-all (wildcard)
child with fragments still to process, registration fails (`none`, the
Go `panic`); concretely, after `Define("/files/:fp*")`, the call
`Define("/files/:fp*/more")` fails. -/
theorem C8_define_through_catchall_fails :
    (∀ (parent : Node) (frag : Str) (rest : List Str) (ic : Bool)
      (p1 : Node) (k : Edge) (c : Node),
      parseNode parent frag ic = some (p1, k, c) → c.wildcard = true → rest ≠ [] →
      defineNode parent (frag :: rest) ic = none)
    ∧ (Define trieC8 (str "/files/:fp*/more")).isSome = false := by
  refine ⟨?_, by decide⟩
  intro parent frag rest ic p1 k c hp hw hr
  rw [defineNode, hp]
  simp only [List.isEmpty_iff, hw]
  rw [if_neg hr]
  rfl

/-- The `:w*` catch-all node created under a blank parent. -/
def nodeC8w : Node := .mk [] [] [] (str "w") false true none none []

/-- C8 witness: the general clause applied to a blank parent, the
fragment `:w*` and one remaining fragment. -/
theorem C8_witness :
    parseNode blankNode (str ":w*") false
      = some (blankNode.setVary nodeC8w, .vary, nodeC8w)
    ∧ nodeC8w.wildcard = true
    ∧ ([str "x"] : List Str) ≠ []
    ∧ defineNode blankNode [str ":w*", str "x"] false = none :=
  ⟨rfl, rfl, by decide,
    C8_define_through_catchall_fails.1 blankNode (str ":w*") [str "x"] false
      (blankNode.setVary nodeC8w) .vary nodeC8w rfl rfl (by decide)⟩

/-! ## C9 — `Match` never mutates the trie -/

theorem matchFragsS_eq (re : Str → Str → Bool) (tsr fpr ic : Bool) (path _path : Str) :
    ∀ (frags : List Str) (σ : Trie) (parent : Node) (res : Matched),
      matchFragsS re tsr fpr ic path _path σ parent frags res
        = (matchFrags re tsr fpr ic path _path parent frags res, σ)
  | [], σ, parent, res => rfl
  | frag :: rest, σ, parent, res => by
    rw [matchFragsS, matchFrags]
    rcases hmn : matchNode re parent (if ic then toLowerStr frag else frag) with ⟨nd | node, named⟩
    · simp only
      split_ifs <;> rfl
    · simp only
      split_ifs with hn hw
      · rfl
      · exact matchFragsS_eq re tsr fpr ic path _path rest σ node _
      · exact matchFragsS_eq re tsr fpr ic path _path rest σ node res

/-- C9: `Match` is read-only on the trie.  Its state-passing
translation — which threads the trie through the walk exactly as the Go
code holds it through node pointers — returns the trie unchanged,
together with the very result the pure `Match` computes: for every trie
reachable by `Define` calls (indeed for every trie value), every regex
engine and every path, `MatchS re t p = (Match re t p, t)`. -/
theorem C9_match_is_pure (re : Str → Str → Bool) (t : Trie) (p : Str) :
    MatchS re t p = (Match re t p, t) := by
  unfold MatchS Match
  exact matchFragsS_eq re t.tsr t.fpr t.ignoreCase _ _ _ t t.root _

/-! ## C7 — `Define` is idempotent -/

theorem lookupL_mapSet_self {α : Type} (l : List (Str × α)) (k : Str) (v : α) :
    lookupL (mapSet l k v) k = some v := by
  induction l with
  | nil => simp [mapSet, lookupL]
  | cons hd tl ih =>
    obtain ⟨k', v'⟩ := hd
    by_cases h : k' = k
    · simp [mapSet, lookupL, h]
    · simp [mapSet, lookupL, h, ih]

theorem mapSet_mapSet {α : Type} (l : List (Str × α)) (k : Str) (a b : α) :
    mapSet (mapSet l k a) k b = mapSet l k b := by
  induction l with
  | nil => simp [mapSet]
  | cons hd tl ih =>
    obtain ⟨k', v'⟩ := hd
    by_cases h : k' = k
    · simp [mapSet, h]
    · simp [mapSet, h, ih]

theorem mapSet_of_lookup_eq {α : Type} (l : List (Str × α)) (k : Str) (v : α)
    (h : lookupL l k = some v) : mapSet l k v = l := by
  induction l with
  | nil => simp [lookupL] at h
  | cons hd tl ih =>
    obtain ⟨k', v'⟩ := hd
    by_cases hk : k' = k
    · subst hk
      simp [lookupL] at h
      simp [mapSet, h]
    · simp [lookupL, hk] at h
      simp [mapSet, hk, ih h]

theorem insertLit_literalChildren (n : Node) (k : Str) (c : Node) :
    (n.insertLit k c).literalChildren = mapSet n.literalChildren k c := by
  cases n; rfl

theorem insertLit_varyChild (n : Node) (k : Str) (c : Node) :
    (n.insertLit k c).varyChild = n.varyChild := by
  cases n; rfl

theorem setVary_varyChild (n : Node) (c : Node) : (n.setVary c).varyChild = some c := by
  cases n; rfl

theorem setVary_literalChildren (n : Node) (c : Node) :
    (n.setVary c).literalChildren = n.literalChildren := by
  cases n; rfl

theorem getChildAt_setChildAt (n : Node) (k : Edge) (c : Node) :
    (n.setChildAt k c).getChildAt k = some c := by
  cases k with
  | lit kk => simp [Node.setChildAt, Node.getChildAt, insertLit_literalChildren,
      lookupL_mapSet_self]
  | vary => simp [Node.setChildAt, Node.getChildAt, setVary_varyChild]

theorem setChildAt_setChildAt (n : Node) (k : Edge) (a b : Node) :
    (n.setChildAt k a).setChildAt k b = n.setChildAt k b := by
  cases k with
  | lit kk =>
    cases n
    simp [Node.setChildAt, Node.insertLit, mapSet_mapSet]
  | vary =>
    cases n
    simp [Node.setChildAt, Node.setVary]

theorem setChildAt_of_getChildAt (n : Node) (k : Edge) (c : Node)
    (h : n.getChildAt k = some c) : n.setChildAt k c = n := by
  cases k with
  | lit kk =>
    cases n
    simp only [Node.getChildAt, Node.literalChildren] at h
    simp [Node.setChildAt, Node.insertLit, mapSet_of_lookup_eq _ _ _ h]
  | vary =>
    cases n
    simp only [Node.getChildAt, Node.varyChild] at h
    simp [Node.setChildAt, Node.setVary, h]

theorem setChildAt_name (n : Node) (k : Edge) (c : Node) :
    (n.setChildAt k c).name = n.name := by
  cases k <;> cases n <;> rfl

theorem setChildAt_wildcard (n : Node) (k : Edge) (c : Node) :
    (n.setChildAt k c).wildcard = n.wildcard := by
  cases k <;> cases n <;> rfl

theorem setChildAt_regex (n : Node) (k : Edge) (c : Node) :
    (n.setChildAt k c).regex = n.regex := by
  cases k <;> cases n <;> rfl

theorem setChildAt_endpoint (n : Node) (k : Edge) (c : Node) :
    (n.setChildAt k c).endpoint = n.endpoint := by
  cases k <;> cases n <;> rfl

theorem markEndpoint_name (n : Node) : n.markEndpoint.name = n.name := by cases n; rfl
theorem markEndpoint_wildcard (n : Node) : n.markEndpoint.wildcard = n.wildcard := by
  cases n; rfl
theorem markEndpoint_regex (n : Node) : n.markEndpoint.regex = n.regex := by cases n; rfl
theorem markEndpoint_endpoint (n : Node) : n.markEndpoint.endpoint = true := by
  cases n; rfl

theorem markEndpoint_of_endpoint (n : Node) (h : n.endpoint = true) :
    n.markEndpoint = n := by
  cases n
  simp only [Node.endpoint] at h
  simp [Node.markEndpoint, h]

theorem setPattern_name (n : Node) (p : Str) : (n.setPattern p).name = n.name := by
  cases n; rfl
theorem setPattern_wildcard (n : Node) (p : Str) :
    (n.setPattern p).wildcard = n.wildcard := by cases n; rfl
theorem setPattern_regex (n : Node) (p : Str) : (n.setPattern p).regex = n.regex := by
  cases n; rfl
theorem setPattern_endpoint (n : Node) (p : Str) :
    (n.setPattern p).endpoint = n.endpoint := by cases n; rfl

theorem setPatternIfEmpty_name (p : Str) (n : Node) :
    (setPatternIfEmpty p n).name = n.name := by
  unfold setPatternIfEmpty; split_ifs <;> simp [setPattern_name]
theorem setPatternIfEmpty_wildcard (p : Str) (n : Node) :
    (setPatternIfEmpty p n).wildcard = n.wildcard := by
  unfold setPatternIfEmpty; split_ifs <;> simp [setPattern_wildcard]
theorem setPatternIfEmpty_regex (p : Str) (n : Node) :
    (setPatternIfEmpty p n).regex = n.regex := by
  unfold setPatternIfEmpty; split_ifs <;> simp [setPattern_regex]
theorem setPatternIfEmpty_endpoint (p : Str) (n : Node) :
    (setPatternIfEmpty p n).endpoint = n.endpoint := by
  unfold setPatternIfEmpty; split_ifs <;> simp [setPattern_endpoint]

theorem insertLit_insertLit (n : Node) (k : Str) (a b : Node) :
    (n.insertLit k a).insertLit k b = n.insertLit k b := by
  cases n
  simp [Node.insertLit, mapSet_mapSet]

theorem setVary_setVary (n : Node) (a b : Node) :
    (n.setVary a).setVary b = n.setVary b := by
  cases n; rfl

theorem normFrag_nil (ic : Bool) : normFrag [] ic = [] := by cases ic <;> rfl

theorem parseNode_again (parent : Node) (frag : Str) (ic : Bool) (p1 : Node) (k : Edge)
    (c c' : Node) (hp : parseNode parent frag ic = some (p1, k, c))
    (hn : c'.name = c.name) (hw : c'.wildcard = c.wildcard) (hr : c'.regex = c.regex) :
    parseNode (p1.setChildAt k c') frag ic = some (p1.setChildAt k c', k, c') := by
  unfold parseNode at hp
  cases hl : lookupL parent.literalChildren (normFrag frag ic) with
  | some c0 =>
    rw [hl] at hp
    simp only [Option.some.injEq, Prod.mk.injEq] at hp
    obtain ⟨rfl, rfl, rfl⟩ := hp
    unfold parseNode
    rw [show (parent.setChildAt (Edge.lit (normFrag frag ic)) c').literalChildren
        = mapSet parent.literalChildren (normFrag frag ic) c' from by
      cases parent; rfl]
    rw [lookupL_mapSet_self]
  | none =>
    rw [hl] at hp
    simp only [] at hp
    by_cases hfe : frag = []
    · subst hfe
      rw [if_pos rfl] at hp
      simp only [Option.some.injEq, Prod.mk.injEq] at hp
      obtain ⟨rfl, rfl, rfl⟩ := hp
      unfold parseNode
      rw [show (((parent.insertLit [] blankNode).setChildAt (Edge.lit []) c')).literalChildren
          = mapSet (mapSet parent.literalChildren [] blankNode) [] c' from by
        cases parent; rfl]
      rw [normFrag_nil, lookupL_mapSet_self]
    · rw [if_neg hfe] at hp
      by_cases hdc : isDoubleColon frag = true
      · rw [if_pos hdc] at hp
        simp only [Option.some.injEq, Prod.mk.injEq] at hp
        obtain ⟨rfl, rfl, rfl⟩ := hp
        unfold parseNode
        rw [show (((parent.insertLit (normFrag frag ic) blankNode).setChildAt
              (Edge.lit (normFrag frag ic)) c')).literalChildren
            = mapSet (mapSet parent.literalChildren (normFrag frag ic) blankNode)
              (normFrag frag ic) c' from by
          cases parent; rfl]
        rw [lookupL_mapSet_self]
      · rw [if_neg hdc] at hp
        by_cases hcl : frag.head? = some ':'
        · rw [if_pos hcl] at hp
          cases hpc : parseColon (frag.drop 1) with
          | none => rw [hpc] at hp; exact absurd hp (by simp)
          | some triple =>
            obtain ⟨name, regex, wild⟩ := triple
            rw [hpc] at hp
            simp only [] at hp
            by_cases hws : isWordStr name = true
            · rw [show (!isWordStr name) = false from by simp [hws], if_neg (by simp)] at hp
              first
              | simp only [] at hp
              | skip
              cases hvc : parent.varyChild with
              | some child =>
                rw [hvc] at hp
                first
                | simp only [] at hp
                | skip
                by_cases hck : child.name ≠ name ∨ child.wildcard ≠ wild
                · rw [if_pos hck] at hp; exact absurd hp (by simp)
                · rw [if_neg hck] at hp
                  push_neg at hck
                  obtain ⟨hckn, hckw⟩ := hck
                  cases hcr : child.regex with
                  | some r =>
                    rw [hcr] at hp
                    first
                    | simp only [] at hp
                    | skip
                    by_cases hrr : r ≠ regex
                    · rw [if_pos hrr] at hp; exact absurd hp (by simp)
                    · rw [if_neg hrr] at hp
                      push_neg at hrr
                      subst hrr
                      simp only [Option.some.injEq, Prod.mk.injEq] at hp
                      obtain ⟨rfl, rfl, rfl⟩ := hp
                      unfold parseNode
                      rw [show (parent.setChildAt Edge.vary c').literalChildren
                          = parent.literalChildren from by cases parent; rfl, hl]
                      simp only []
                      rw [if_neg hfe, if_neg hdc, if_pos hcl, hpc]
                      simp only []
                      rw [show (!isWordStr name) = false from by simp [hws], if_neg (by simp)]
                      first
                      | simp only []
                      | skip
                      rw [show (parent.setChildAt Edge.vary c').varyChild = some c' from by
                        cases parent; rfl]
                      simp only []
                      rw [if_neg (by
                        push_neg
                        exact ⟨by rw [hn, hckn], by rw [hw, hckw]⟩)]
                      rw [show c'.regex = some r from by rw [hr, hcr]]
                      simp only []
                      rw [if_neg (by push_neg; rfl)]
                  | none =>
                    rw [hcr] at hp
                    first
                    | simp only [] at hp
                    | skip
                    simp only [Option.some.injEq, Prod.mk.injEq] at hp
                    obtain ⟨rfl, rfl, rfl⟩ := hp
                    unfold parseNode
                    rw [show (parent.setChildAt Edge.vary c').literalChildren
                        = parent.literalChildren from by cases parent; rfl, hl]
                    simp only []
                    rw [if_neg hfe, if_neg hdc, if_pos hcl, hpc]
                    simp only []
                    rw [show (!isWordStr name) = false from by simp [hws], if_neg (by simp)]
                    first
                    | simp only []
                    | skip
                    rw [show (parent.setChildAt Edge.vary c').varyChild = some c' from by
                      cases parent; rfl]
                    simp only []
                    rw [if_neg (by
                      push_neg
                      exact ⟨by rw [hn, hckn], by rw [hw, hckw]⟩)]
                    rw [show c'.regex = none from by rw [hr, hcr]]
              | none =>
                rw [hvc] at hp
                first
                | simp only [] at hp
                | skip
                simp only [Option.some.injEq, Prod.mk.injEq] at hp
                obtain ⟨rfl, rfl, rfl⟩ := hp
                unfold parseNode
                rw [show ((parent.setVary
                      (Node.mk [] [] [] name false wild
                        (if regex ≠ [] then some regex else none) none [])).setChildAt
                      Edge.vary c').literalChildren
                    = parent.literalChildren from by cases parent; rfl, hl]
                simp only []
                rw [if_neg hfe, if_neg hdc, if_pos hcl, hpc]
                simp only []
                rw [show (!isWordStr name) = false from by simp [hws], if_neg (by simp)]
                first
                | simp only []
                | skip
                rw [show ((parent.setVary
                      (Node.mk [] [] [] name false wild
                        (if regex ≠ [] then some regex else none) none [])).setChildAt
                      Edge.vary c').varyChild = some c' from by cases parent; rfl]
                simp only []
                rw [if_neg (by
                  push_neg
                  constructor
                  · rw [hn]; rfl
                  · rw [hw]; rfl)]
                by_cases hre : regex ≠ []
                · rw [show c'.regex = some regex from by
                    rw [hr]
                    show (if regex ≠ [] then some regex else none) = some regex
                    rw [if_pos hre]]
                  simp only []
                  rw [if_neg (by push_neg; rfl)]
                · rw [show c'.regex = none from by
                    rw [hr]
                    show (if regex ≠ [] then some regex else none) = none
                    rw [if_neg hre]]
            · rw [show (!isWordStr name) = true from by simp [hws], if_pos rfl] at hp
              exact absurd hp (by simp)
        · rw [if_neg hcl] at hp
          by_cases hst : frag.head? = some '*' ∨ frag.head? = some '(' ∨ frag.head? = some ')'
          · rw [if_pos hst] at hp; exact absurd hp (by simp)
          · rw [if_neg hst] at hp
            simp only [Option.some.injEq, Prod.mk.injEq] at hp
            obtain ⟨rfl, rfl, rfl⟩ := hp
            unfold parseNode
            rw [show (((parent.insertLit (normFrag frag ic) blankNode).setChildAt
                  (Edge.lit (normFrag frag ic)) c')).literalChildren
                = mapSet (mapSet parent.literalChildren (normFrag frag ic) blankNode)
                  (normFrag frag ic) c' from by
              cases parent; rfl]
            rw [lookupL_mapSet_self]

theorem parseNode_parent_scalars (parent : Node) (frag : Str) (ic : Bool) (p1 : Node)
    (k : Edge) (c : Node) (hp : parseNode parent frag ic = some (p1, k, c)) :
    p1.name = parent.name ∧ p1.wildcard = parent.wildcard ∧ p1.regex = parent.regex
      ∧ p1.endpoint = parent.endpoint ∧ p1.pattern = parent.pattern := by
  unfold parseNode at hp
  repeat' split at hp
  all_goals
    first
    | (simp only [Option.some.injEq, Prod.mk.injEq] at hp
       obtain ⟨rfl, -, -⟩ := hp
       refine ⟨?_, ?_, ?_, ?_, ?_⟩ <;> (cases parent; rfl))
    | simp at hp

theorem modifyAt_setChildAt_cons (n : Node) (k : Edge) (c : Node) (p : List Edge)
    (f : Node → Node) :
    (n.setChildAt k c).modifyAt (k :: p) f = n.setChildAt k (c.modifyAt p f) := by
  cases k with
  | lit kk =>
    rw [Node.modifyAt]
    rw [show (n.setChildAt (Edge.lit kk) c).literalChildren
        = mapSet n.literalChildren kk c from by cases n; rfl]
    rw [lookupL_mapSet_self]
    show (n.insertLit kk c).insertLit kk (c.modifyAt p f) = n.insertLit kk (c.modifyAt p f)
    exact insertLit_insertLit n kk c _
  | vary =>
    rw [Node.modifyAt]
    rw [show (n.setChildAt Edge.vary c).varyChild = some c from by cases n; rfl]
    show (n.setVary c).setVary (c.modifyAt p f) = n.setVary (c.modifyAt p f)
    exact setVary_setVary n c _

theorem modifyAt_preserves (f : Node → Node)
    (h1 : ∀ x, (f x).name = x.name) (h2 : ∀ x, (f x).wildcard = x.wildcard)
    (h3 : ∀ x, (f x).regex = x.regex) (h4 : ∀ x, (f x).endpoint = x.endpoint) :
    ∀ (p : List Edge) (n : Node),
      (n.modifyAt p f).name = n.name ∧ (n.modifyAt p f).wildcard = n.wildcard
        ∧ (n.modifyAt p f).regex = n.regex ∧ (n.modifyAt p f).endpoint = n.endpoint
  | [], n => ⟨h1 n, h2 n, h3 n, h4 n⟩
  | .lit kk :: p, n => by
    rw [Node.modifyAt]
    cases hl : lookupL n.literalChildren kk with
    | none => exact ⟨rfl, rfl, rfl, rfl⟩
    | some c =>
      refine ⟨?_, ?_, ?_, ?_⟩ <;> (cases n; rfl)
  | .vary :: p, n => by
    rw [Node.modifyAt]
    cases hv : n.varyChild with
    | none => exact ⟨rfl, rfl, rfl, rfl⟩
    | some c =>
      refine ⟨?_, ?_, ?_, ?_⟩ <;> (cases n; rfl)

theorem modifyAt_lit_none (n : Node) (kk : Str) (p : List Edge) (f : Node → Node)
    (hl : lookupL n.literalChildren kk = none) :
    n.modifyAt (.lit kk :: p) f = n := by
  rw [Node.modifyAt, hl]

theorem modifyAt_lit_some (n : Node) (kk : Str) (p : List Edge) (f : Node → Node)
    (c : Node) (hl : lookupL n.literalChildren kk = some c) :
    n.modifyAt (.lit kk :: p) f = n.insertLit kk (c.modifyAt p f) := by
  rw [Node.modifyAt, hl]

theorem modifyAt_vary_none (n : Node) (p : List Edge) (f : Node → Node)
    (hv : n.varyChild = none) :
    n.modifyAt (.vary :: p) f = n := by
  rw [Node.modifyAt, hv]

theorem modifyAt_vary_some (n : Node) (p : List Edge) (f : Node → Node)
    (c : Node) (hv : n.varyChild = some c) :
    n.modifyAt (.vary :: p) f = n.setVary (c.modifyAt p f) := by
  rw [Node.modifyAt, hv]

theorem modifyAt_modifyAt (f g : Node → Node) :
    ∀ (p : List Edge) (n : Node),
      (n.modifyAt p f).modifyAt p g = n.modifyAt p (fun x => g (f x))
  | [], n => rfl
  | .lit kk :: p, n => by
    cases hl : lookupL n.literalChildren kk with
    | none =>
      rw [modifyAt_lit_none n kk p f hl, modifyAt_lit_none n kk p g hl,
        modifyAt_lit_none n kk p _ hl]
    | some c =>
      rw [modifyAt_lit_some n kk p f c hl,
        modifyAt_lit_some (n.insertLit kk (c.modifyAt p f)) kk p g (c.modifyAt p f)
          (by rw [insertLit_literalChildren, lookupL_mapSet_self]),
        insertLit_insertLit, modifyAt_modifyAt f g p c,
        modifyAt_lit_some n kk p _ c hl]
  | .vary :: p, n => by
    cases hv : n.varyChild with
    | none =>
      rw [modifyAt_vary_none n p f hv, modifyAt_vary_none n p g hv,
        modifyAt_vary_none n p _ hv]
    | some c =>
      rw [modifyAt_vary_some n p f c hv,
        modifyAt_vary_some (n.setVary (c.modifyAt p f)) p g (c.modifyAt p f)
          (setVary_varyChild n _),
        setVary_setVary, modifyAt_modifyAt f g p c,
        modifyAt_vary_some n p _ c hv]

theorem setPattern_setPattern (x : Node) (a b : Str) :
    (x.setPattern a).setPattern b = x.setPattern b := by
  cases x; rfl

theorem setPattern_pattern (x : Node) (a : Str) : (x.setPattern a).pattern = a := by
  cases x; rfl

theorem setPatternIfEmpty_idem (pat : Str) (x : Node) :
    setPatternIfEmpty pat (setPatternIfEmpty pat x) = setPatternIfEmpty pat x := by
  unfold setPatternIfEmpty
  by_cases h1 : x.pattern = []
  · rw [if_pos h1]
    by_cases h2 : (x.setPattern pat).pattern = []
    · rw [if_pos h2, setPattern_setPattern]
    · rw [if_neg h2]
  · rw [if_neg h1, if_neg h1]

theorem defineNode_parent_scalars (frags : List Str) (parent : Node) (ic : Bool)
    (parent' : Node) (path : List Edge)
    (h : defineNode parent frags ic = some (parent', path)) :
    parent'.name = parent.name ∧ parent'.wildcard = parent.wildcard
      ∧ parent'.regex = parent.regex := by
  cases frags with
  | nil => rw [defineNode] at h; exact absurd h (by simp)
  | cons frag rest =>
    rw [defineNode] at h
    cases hps : parseNode parent frag ic with
    | none => rw [hps] at h; simp at h
    | some trip =>
      obtain ⟨p1, k, child⟩ := trip
      rw [hps] at h
      simp only [] at h
      have hs := parseNode_parent_scalars parent frag ic p1 k child hps
      by_cases hempty : rest.isEmpty = true
      · rw [if_pos hempty] at h
        simp only [Option.some.injEq, Prod.mk.injEq] at h
        obtain ⟨hpar, -⟩ := h
        subst hpar
        exact ⟨by rw [setChildAt_name, hs.1], by rw [setChildAt_wildcard, hs.2.1],
          by rw [setChildAt_regex, hs.2.2.1]⟩
      · rw [if_neg hempty] at h
        by_cases hwild : child.wildcard = true
        · rw [if_pos hwild] at h; simp at h
        · rw [if_neg hwild] at h
          cases hdn : defineNode child rest ic with
          | none => rw [hdn] at h; simp at h
          | some pr =>
            obtain ⟨c1, sub⟩ := pr
            rw [hdn] at h
            simp only [Option.some.injEq, Prod.mk.injEq] at h
            obtain ⟨hpar, -⟩ := h
            subst hpar
            exact ⟨by rw [setChildAt_name, hs.1], by rw [setChildAt_wildcard, hs.2.1],
              by rw [setChildAt_regex, hs.2.2.1]⟩

theorem defineNode_again (ic : Bool) (pat : Str) :
    ∀ (frags : List Str) (parent parent' : Node) (path : List Edge),
      defineNode parent frags ic = some (parent', path) →
      defineNode (parent'.modifyAt path (setPatternIfEmpty pat)) frags ic
        = some (parent'.modifyAt path (setPatternIfEmpty pat), path)
  | [], parent, parent', path, h => by
    rw [defineNode] at h; exact absurd h (by simp)
  | frag :: rest, parent, parent', path, h => by
    rw [defineNode] at h
    cases hps : parseNode parent frag ic with
    | none => rw [hps] at h; simp at h
    | some trip =>
      obtain ⟨p1, k, child⟩ := trip
      rw [hps] at h
      simp only [] at h
      by_cases hempty : rest.isEmpty = true
      · rw [if_pos hempty] at h
        simp only [Option.some.injEq, Prod.mk.injEq] at h
        obtain ⟨hpar, hpath⟩ := h
        subst hpar hpath
        rw [modifyAt_setChildAt_cons]
        have hpres := modifyAt_preserves (setPatternIfEmpty pat)
          (setPatternIfEmpty_name pat) (setPatternIfEmpty_wildcard pat)
          (setPatternIfEmpty_regex pat) (setPatternIfEmpty_endpoint pat)
          [] child.markEndpoint
        have hpa := parseNode_again parent frag ic p1 k child
          (child.markEndpoint.modifyAt [] (setPatternIfEmpty pat)) hps
          (by rw [hpres.1, markEndpoint_name])
          (by rw [hpres.2.1, markEndpoint_wildcard])
          (by rw [hpres.2.2.1, markEndpoint_regex])
        rw [defineNode, hpa]
        simp only []
        rw [if_pos hempty]
        rw [markEndpoint_of_endpoint (child.markEndpoint.modifyAt [] (setPatternIfEmpty pat))
          (by rw [hpres.2.2.2, markEndpoint_endpoint])]
        rw [setChildAt_setChildAt]
      · rw [if_neg hempty] at h
        by_cases hwild : child.wildcard = true
        · rw [if_pos hwild] at h; simp at h
        · rw [if_neg hwild] at h
          cases hdn : defineNode child rest ic with
          | none => rw [hdn] at h; simp at h
          | some pr =>
            obtain ⟨c1, sub⟩ := pr
            rw [hdn] at h
            simp only [Option.some.injEq, Prod.mk.injEq] at h
            obtain ⟨hpar, hpath⟩ := h
            subst hpar hpath
            rw [modifyAt_setChildAt_cons]
            have hsc := defineNode_parent_scalars rest child ic c1 sub hdn
            have hpres := modifyAt_preserves (setPatternIfEmpty pat)
              (setPatternIfEmpty_name pat) (setPatternIfEmpty_wildcard pat)
              (setPatternIfEmpty_regex pat) (setPatternIfEmpty_endpoint pat) sub c1
            have hpa := parseNode_again parent frag ic p1 k child
              (c1.modifyAt sub (setPatternIfEmpty pat)) hps
              (by rw [hpres.1, hsc.1]) (by rw [hpres.2.1, hsc.2.1])
              (by rw [hpres.2.2.1, hsc.2.2])
            rw [defineNode, hpa]
            simp only []
            rw [if_neg hempty]
            rw [show (c1.modifyAt sub (setPatternIfEmpty pat)).wildcard = false from by
              rw [hpres.2.1, hsc.2.1]
              simpa using hwild]
            rw [if_neg (by simp)]
            rw [defineNode_again ic pat rest child c1 sub hdn]
            simp only []
            rw [setChildAt_setChildAt]

/-- C7: `Define` is idempotent — if `Define t p` succeeds, returning the
updated trie `t'` and the endpoint node `n` (identified by its edge path
from the root), then `Define t' p` returns the identical trie and the
identical node: the second registration finds every fragment already in
place, creates nothing, and returns the existing endpoint. -/
theorem C7_define_idempotent (t : Trie) (p : Str) (t' : Trie) (n : List Edge)
    (h : Define t p = some (t', n)) : Define t' p = some (t', n) := by
  unfold Define at h ⊢
  by_cases hc : containsDSlash p = true
  · rw [if_pos hc] at h; exact absurd h (by simp)
  · rw [if_neg hc] at h ⊢
    cases hdn : defineNode t.root (splitSlash (trimLeadingSlash p)) t.ignoreCase with
    | none => rw [hdn] at h; simp at h
    | some pr =>
      obtain ⟨root1, path⟩ := pr
      rw [hdn] at h
      simp only [Option.some.injEq, Prod.mk.injEq] at h
      obtain ⟨ht, hn'⟩ := h
      subst hn'
      subst ht
      have hd2 := defineNode_again t.ignoreCase p (splitSlash (trimLeadingSlash p))
        t.root root1 path hdn
      rw [show ({ t with root := root1.modifyAt path (setPatternIfEmpty p) } : Trie).root
          = root1.modifyAt path (setPatternIfEmpty p) from rfl,
        show ({ t with root := root1.modifyAt path (setPatternIfEmpty p) } : Trie).ignoreCase
          = t.ignoreCase from rfl,
        hd2]
      simp only [Option.some.injEq, Prod.mk.injEq]
      constructor
      · rw [modifyAt_modifyAt]
        rw [show (fun x => setPatternIfEmpty p (setPatternIfEmpty p x)) = setPatternIfEmpty p
          from funext (fun x => setPatternIfEmpty_idem p x)]
      · trivial

/-- The trie and endpoint path produced by `Define("/a/b")` on a fresh
default trie. -/
def trieC7 : Trie :=
  ((Define (New defaultOptions) (str "/a/b")).map Prod.fst).getD (New defaultOptions)

/-- The endpoint path of `Define("/a/b")` on a fresh default trie. -/
def pathC7 : List Edge :=
  ((Define (New defaultOptions) (str "/a/b")).map (fun x => x.2)).getD []

/-- C7 witness: the theorem applied to the concrete registration of
`/a/b` on a fresh default trie. -/
theorem C7_witness :
    Define (New defaultOptions) (str "/a/b") = some (trieC7, pathC7)
    ∧ Define trieC7 (str "/a/b") = some (trieC7, pathC7) :=
  ⟨rfl, C7_define_idempotent (New defaultOptions) (str "/a/b") trieC7 pathC7 rfl⟩

/-! ## C5 — matching the literal expansion of a registered pattern

A registration pattern without catch-all or regex parameters is a list
of fragments, each either a literal or a plain named parameter; its
literal expansion substitutes a concrete value for each parameter.
`Define` on a fresh trie builds a single chain of nodes for such a
pattern, and `Match` on the expansion walks exactly that chain. -/

/-- One fragment of a registration pattern: a literal, or a plain named
parameter `:name`. -/
inductive PFrag where
  | lit (s : Str)
  | param (n : Str)

/-- The fragment as it appears in the pattern string. -/
def fragStr : PFrag → Str
  | .lit s => s
  | .param n => ':' :: n

/-- The registration pattern string `"/" ++ f1 ++ "/" ++ f2 ++ …`. -/
def patStr (fs : List PFrag) : Str := '/' :: joinSlash (fs.map fragStr)

/-- The fragment of the literal expansion under the substitution `val`. -/
def expFrag (val : Str → Str) : PFrag → Str
  | .lit s => s
  | .param n => val n

/-- The literal expansion of the pattern under `val`. -/
def expPath (fs : List PFrag) (val : Str → Str) : Str :=
  '/' :: joinSlash (fs.map (expFrag val))

/-- The parameter name of a fragment, if any. -/
def paramName? : PFrag → Option Str
  | .lit _ => none
  | .param n => some n

/-- The parameter bindings `Match` should extract from the expansion. -/
def binds (val : Str → Str) (fs : List PFrag) : List (Str × Str) :=
  fs.filterMap (fun f => (paramName? f).map (fun n => (n, val n)))

/-- A well-formed fragment: a literal is non-empty, separator-free and
does not begin with one of the grammar's marker characters; a parameter
name is a word string. -/
def fragOK : PFrag → Prop
  | .lit s => s ≠ [] ∧ '/' ∉ s ∧ s.head? ≠ some ':' ∧ s.head? ≠ some '*'
      ∧ s.head? ≠ some '(' ∧ s.head? ≠ some ')'
  | .param n => isWordStr n = true

instance : DecidablePred fragOK := fun f => by
  cases f <;> (unfold fragOK; infer_instance)

/-- The child edge a fragment hangs under. -/
def edgeOf (ic : Bool) : PFrag → Edge
  | .lit s => .lit (normFrag s ic)
  | .param _ => .vary

/-- The fresh node `parseNode` creates for a fragment. -/
def mkN : PFrag → Node
  | .lit _ => blankNode
  | .param n => .mk [] [] [] n false false none none []

/-- The chain of nodes `Define` builds for the pattern `fs` (before the
pattern field is written): the last node is an endpoint. -/
def chain0 (ic : Bool) : List PFrag → Node
  | [] => blankNode
  | [f] => (mkN f).markEndpoint
  | f :: g :: rest => (mkN f).setChildAt (edgeOf ic g) (chain0 ic (g :: rest))

/-- The chain with the registration pattern written at the endpoint. -/
def chainP (ic : Bool) (pat : Str) : List PFrag → Node
  | [] => blankNode
  | [f] => ((mkN f).markEndpoint).setPattern pat
  | f :: g :: rest => (mkN f).setChildAt (edgeOf ic g) (chainP ic pat (g :: rest))

/-- The endpoint node of the chain. -/
def chainEnd (pat : Str) : List PFrag → Node
  | [] => blankNode
  | [f] => ((mkN f).markEndpoint).setPattern pat
  | _ :: g :: rest => chainEnd pat (g :: rest)

theorem isDoubleColon_of_head_ne (s : Str) (h : s.head? ≠ some ':') :
    isDoubleColon s = false := by
  rw [isDoubleColon.eq_def]
  split
  all_goals first
  | rfl
  | simp_all

theorem isWordChar_ne_rparen (c : Char) (h : isWordChar c = true) : c ≠ ')' := by
  intro hc; subst hc; simp [isWordChar] at h

theorem isWordChar_ne_star (c : Char) (h : isWordChar c = true) : c ≠ '*' := by
  intro hc; subst hc; simp [isWordChar] at h

theorem isWordChar_ne_slash (c : Char) (h : isWordChar c = true) : c ≠ '/' := by
  intro hc; subst hc; simp [isWordChar] at h

theorem isDoubleColon_of_word (n : Str) (hw : isWordStr n = true) :
    isDoubleColon (':' :: n) = false := by
  rw [isDoubleColon.eq_def]
  split
  · rename_i rest heq
    simp only [List.cons.injEq] at heq
    obtain ⟨-, hn⟩ := heq
    subst hn
    simp only [isWordStr, List.all_cons, Bool.and_eq_true] at hw
    exact absurd hw.2.1 (by decide)
  · rfl

theorem parseColon_of_word (n : Str) (hw : isWordStr n = true) :
    parseColon n = some (n, [], false) := by
  cases hg : n.getLast? with
  | none =>
    rw [List.getLast?_eq_none_iff] at hg
    subst hg
    simp [isWordStr] at hw
  | some t =>
    have ht : t ∈ n := by
      obtain ⟨hne', hx⟩ := List.mem_getLast?_eq_getLast (l := n) (x := t) (by rw [hg]; rfl)
      exact hx ▸ List.getLast_mem hne'
    have htw : isWordChar t = true := by
      simp only [isWordStr, Bool.and_eq_true, List.all_eq_true] at hw
      exact hw.2 t ht
    rw [parseColon, hg]
    simp only []
    rw [if_neg (isWordChar_ne_rparen t htw), if_neg (isWordChar_ne_star t htw)]

/-- `parseNode` on a childless parent and a well-formed fragment creates
the fragment's fresh node under the fragment's edge. -/
theorem parseNode_fresh (parent : Node) (f : PFrag) (ic : Bool)
    (hok : fragOK f) (hlc : parent.literalChildren = [])
    (hvc : parent.varyChild = none) :
    parseNode parent (fragStr f) ic
      = some (parent.setChildAt (edgeOf ic f) (mkN f), edgeOf ic f, mkN f) := by
  cases f with
  | lit s =>
    obtain ⟨hne, -, hcol, hstar, hlp, hrp⟩ := hok
    have hdc : isDoubleColon s = false := isDoubleColon_of_head_ne s hcol
    simp only [fragStr, edgeOf, mkN]
    rw [parseNode, hlc]
    rw [show ∀ k : Str, (lookupL ([] : List (Str × Node)) k) = none from fun _ => rfl]
    simp only []
    rw [if_neg hne, if_neg (by simp [hdc]), if_neg hcol,
      if_neg (by push_neg; exact ⟨hstar, hlp, hrp⟩)]
    rfl
  | param n =>
    have hw : isWordStr n = true := hok
    have hdc : isDoubleColon (':' :: n) = false := isDoubleColon_of_word n hw
    simp only [fragStr, edgeOf, mkN]
    rw [parseNode, hlc]
    rw [show ∀ k : Str, (lookupL ([] : List (Str × Node)) k) = none from fun _ => rfl]
    simp only []
    rw [if_neg (show ¬((':' :: n) = []) from by simp), if_neg (by simp [hdc]),
      if_pos (show (':' :: n).head? = some ':' from rfl),
      show List.drop 1 (':' :: n) = n from rfl, parseColon_of_word n hw]
    simp only []
    rw [show (!isWordStr n) = false from by simp [hw], if_neg (by simp), hvc]
    rfl

theorem mkN_literalChildren (f : PFrag) : (mkN f).literalChildren = [] := by
  cases f <;> rfl
theorem mkN_varyChild (f : PFrag) : (mkN f).varyChild = none := by cases f <;> rfl
theorem mkN_wildcard (f : PFrag) : (mkN f).wildcard = false := by cases f <;> rfl

/-- `defineNode` on a childless parent builds the chain of the pattern's
fragments under the first fragment's edge. -/
theorem defineNode_chain (ic : Bool) :
    ∀ (f : PFrag) (fs : List PFrag) (parent : Node),
      (∀ g ∈ f :: fs, fragOK g) →
      parent.literalChildren = [] → parent.varyChild = none →
      defineNode parent ((f :: fs).map fragStr) ic
        = some (parent.setChildAt (edgeOf ic f) (chain0 ic (f :: fs)),
            (f :: fs).map (edgeOf ic))
  | f, [], parent, hok, hlc, hvc => by
    rw [List.map_cons, List.map_nil, defineNode,
      parseNode_fresh parent f ic (hok f (by simp)) hlc hvc]
    simp only []
    rw [if_pos (show (List.isEmpty [] : Bool) = true from rfl), setChildAt_setChildAt]
    rfl
  | f, g :: rest, parent, hok, hlc, hvc => by
    rw [List.map_cons, defineNode,
      parseNode_fresh parent f ic (hok f (by simp)) hlc hvc]
    simp only []
    rw [if_neg (by simp), if_neg (by simp [mkN_wildcard])]
    rw [defineNode_chain ic g rest (mkN f) (fun x hx => hok x (by simp [hx]))
      (mkN_literalChildren f) (mkN_varyChild f)]
    simp only []
    rw [setChildAt_setChildAt]
    rfl

/-- Writing the pattern at the chain's endpoint turns `chain0` into
`chainP`. -/
theorem modifyAt_chain (ic : Bool) (pat : Str) :
    ∀ (f : PFrag) (fs : List PFrag) (parent : Node),
      (parent.setChildAt (edgeOf ic f) (chain0 ic (f :: fs))).modifyAt
          ((f :: fs).map (edgeOf ic)) (setPatternIfEmpty pat)
        = parent.setChildAt (edgeOf ic f) (chainP ic pat (f :: fs))
  | f, [], parent => by
    rw [List.map_cons, List.map_nil, modifyAt_setChildAt_cons]
    rw [show (chain0 ic [f]).modifyAt [] (setPatternIfEmpty pat)
        = setPatternIfEmpty pat ((mkN f).markEndpoint) from rfl]
    rw [show setPatternIfEmpty pat ((mkN f).markEndpoint)
        = ((mkN f).markEndpoint).setPattern pat from by
      unfold setPatternIfEmpty
      rw [if_pos (show ((mkN f).markEndpoint).pattern = [] from by cases f <;> rfl)]]
    rfl
  | f, g :: rest, parent => by
    rw [List.map_cons, modifyAt_setChildAt_cons]
    rw [show chain0 ic (f :: g :: rest)
        = (mkN f).setChildAt (edgeOf ic g) (chain0 ic (g :: rest)) from rfl]
    rw [modifyAt_chain ic pat g rest (mkN f)]
    rfl

theorem get?_setChildAt_cons (n : Node) (k : Edge) (c : Node) (p : List Edge) :
    (n.setChildAt k c).get? (k :: p) = c.get? p := by
  cases k with
  | lit kk =>
    rw [Node.get?]
    rw [show (n.setChildAt (Edge.lit kk) c).literalChildren
        = mapSet n.literalChildren kk c from by cases n; rfl, lookupL_mapSet_self]
  | vary =>
    rw [Node.get?]
    rw [show (n.setChildAt Edge.vary c).varyChild = some c from by cases n; rfl]

/-- Resolving the endpoint path in the chain yields the endpoint node. -/
theorem get?_chain (ic : Bool) (pat : Str) :
    ∀ (f : PFrag) (fs : List PFrag) (parent : Node),
      (parent.setChildAt (edgeOf ic f) (chainP ic pat (f :: fs))).get?
          ((f :: fs).map (edgeOf ic))
        = some (chainEnd pat (f :: fs))
  | f, [], parent => by
    rw [List.map_cons, List.map_nil, get?_setChildAt_cons]
    rfl
  | f, g :: rest, parent => by
    rw [List.map_cons, get?_setChildAt_cons,
      show chainP ic pat (f :: g :: rest)
        = (mkN f).setChildAt (edgeOf ic g) (chainP ic pat (g :: rest)) from rfl,
      get?_chain ic pat g rest (mkN f)]
    rfl

theorem normFrag_of_not_dc (s : Str) (ic : Bool) (h : isDoubleColon s = false) :
    normFrag s ic = if ic then toLowerStr s else s := by
  simp [normFrag, h]

theorem setChildAt_lit_lc (n : Node) (kk : Str) (c : Node) :
    (n.setChildAt (.lit kk) c).literalChildren = mapSet n.literalChildren kk c := by
  cases n; rfl

theorem setChildAt_vary_lc (n c : Node) :
    (n.setChildAt .vary c).literalChildren = n.literalChildren := by cases n; rfl

theorem setChildAt_vary_vc (n c : Node) :
    (n.setChildAt .vary c).varyChild = some c := by cases n; rfl

theorem matchNode_attached_lit (re : Str → Str → Bool) (parent : Node) (kk : Str)
    (c : Node) (hlc : parent.literalChildren = []) :
    matchNode re (parent.setChildAt (.lit kk) c) kk = (some c, false) := by
  unfold matchNode
  rw [setChildAt_lit_lc, hlc,
    show mapSet ([] : List (Str × Node)) kk c = [(kk, c)] from rfl,
    show lookupL [(kk, c)] kk = some c from by simp [lookupL]]

theorem matchNode_attached_vary (re : Str → Str → Bool) (parent c : Node) (w : Str)
    (hlc : parent.literalChildren = []) (hreg : c.regex = none) :
    matchNode re (parent.setChildAt .vary c) w = (some c, true) := by
  unfold matchNode
  rw [setChildAt_vary_lc, hlc,
    show lookupL ([] : List (Str × Node)) w = none from rfl]
  simp only []
  rw [setChildAt_vary_vc]
  simp only []
  rw [hreg]

theorem mkN_regex (f : PFrag) : (mkN f).regex = none := by cases f <;> rfl

theorem chainP_cons_cons (ic : Bool) (pat : Str) (f g : PFrag) (rest : List PFrag) :
    chainP ic pat (f :: g :: rest)
      = (mkN f).setChildAt (edgeOf ic g) (chainP ic pat (g :: rest)) := rfl

theorem chainP_wildcard (ic : Bool) (pat : Str) (f : PFrag) (fs : List PFrag) :
    (chainP ic pat (f :: fs)).wildcard = false := by
  cases fs with
  | nil => cases f <;> rfl
  | cons g rest => rw [chainP_cons_cons, setChildAt_wildcard, mkN_wildcard]

theorem chainP_regex (ic : Bool) (pat : Str) (f : PFrag) (fs : List PFrag) :
    (chainP ic pat (f :: fs)).regex = none := by
  cases fs with
  | nil => cases f <;> rfl
  | cons g rest => rw [chainP_cons_cons, setChildAt_regex, mkN_regex]

theorem chainP_name_param (ic : Bool) (pat : Str) (n : Str) (fs : List PFrag) :
    (chainP ic pat (.param n :: fs)).name = n := by
  cases fs with
  | nil => rfl
  | cons g rest => rw [chainP_cons_cons, setChildAt_name]; rfl

theorem chainP_endpoint_last (ic : Bool) (pat : Str) (f : PFrag) :
    (chainP ic pat [f]).endpoint = true := by
  cases f <;> rfl

theorem matchEpilogue_endpoint_same (tsr fpr : Bool) (pth : Str) (node : Node)
    (res : Matched) (hend : node.endpoint = true) :
    matchEpilogue tsr fpr pth pth node res = { res with Node := some node } := by
  unfold matchEpilogue
  rw [if_pos hend, decide_ne_self, Bool.and_false, if_neg (by simp)]

theorem lookupL_append_none {α : Type} (l1 l2 : List (Str × α)) (k : Str)
    (h1 : lookupL l1 k = none) : lookupL (l1 ++ l2) k = lookupL l2 k := by
  induction l1 with
  | nil => rfl
  | cons hd t ih =>
    obtain ⟨k', v⟩ := hd
    rw [lookupL] at h1
    by_cases hk : k' = k
    · rw [if_pos hk] at h1; exact absurd h1 (by simp)
    · rw [if_neg hk] at h1
      rw [List.cons_append, lookupL, if_neg hk]
      exact ih h1

theorem mapSet_append_fresh {α : Type} (l : List (Str × α)) (k : Str) (v : α)
    (h : lookupL l k = none) : mapSet l k v = l ++ [(k, v)] := by
  induction l with
  | nil => rfl
  | cons hd t ih =>
    obtain ⟨k', v'⟩ := hd
    rw [lookupL] at h
    by_cases hk : k' = k
    · rw [if_pos hk] at h; exact absurd h (by simp)
    · rw [if_neg hk] at h
      rw [mapSet, if_neg hk, List.cons_append, ih h]

theorem lookupL_singleton {α : Type} (k m : Str) (v : α) :
    lookupL [(k, v)] m = if k = m then some v else none := rfl

/-- Walking the expansion fragments down the chain matches the endpoint
and binds exactly the substituted values. -/
theorem matchFrags_chain (re : Str → Str → Bool) (tsr fpr ic : Bool) (pth pat : Str)
    (val : Str → Str) :
    ∀ (f : PFrag) (fs : List PFrag) (parent : Node) (res : Matched),
      (∀ g ∈ f :: fs, fragOK g) →
      ((f :: fs).filterMap paramName?).Nodup →
      (∀ m ∈ (f :: fs).filterMap paramName?, lookupL res.Params m = none) →
      parent.literalChildren = [] → parent.varyChild = none →
      matchFrags re tsr fpr ic pth pth
        (parent.setChildAt (edgeOf ic f) (chainP ic pat (f :: fs)))
        ((f :: fs).map (expFrag val)) res
      = { Node := some (chainEnd pat (f :: fs)),
          Params := res.Params ++ binds val (f :: fs),
          FPR := res.FPR, TSR := res.TSR }
  | f, [], parent, res, hok, hnd, hfr, hlc, hvc => by
    cases f with
    | lit s =>
      have hokl : s ≠ [] ∧ '/' ∉ s ∧ s.head? ≠ some ':' ∧ s.head? ≠ some '*'
          ∧ s.head? ≠ some '(' ∧ s.head? ≠ some ')' := hok (PFrag.lit s) (by simp)
      have hdc : isDoubleColon s = false := isDoubleColon_of_head_ne s hokl.2.2.1
      rw [List.map_cons, List.map_nil, matchFrags]
      simp only [expFrag]
      rw [show edgeOf ic (PFrag.lit s) = Edge.lit (normFrag s ic) from rfl,
        normFrag_of_not_dc s ic hdc]
      rw [matchNode_attached_lit re parent _ _ hlc]
      simp only []
      first
      | rw [if_neg (show ¬((false : Bool) = true) from by simp)]
      | rw [if_neg (show ¬False from fun hq => hq)]
      | skip
      rw [matchFrags, matchEpilogue_endpoint_same _ _ _ _ _ (chainP_endpoint_last ic pat _)]
      rw [show binds val [PFrag.lit s] = [] from rfl, List.append_nil]
      rfl
    | param n =>
      have hmem : List.filterMap paramName? [PFrag.param n] = [n] := rfl
      rw [List.map_cons, List.map_nil, matchFrags]
      simp only [expFrag]
      rw [show edgeOf ic (PFrag.param n) = Edge.vary from rfl]
      rw [matchNode_attached_vary re parent _ _ hlc (chainP_regex ic pat _ [])]
      simp only []
      first
      | rw [if_pos (show (true : Bool) = true from rfl)]
      | rw [if_pos True.intro]
      | skip
      first
      | rw [if_neg (by simp [chainP_wildcard])]
      | skip
      first
      | rw [chainP_name_param]
      | skip
      rw [mapSet_append_fresh res.Params n (val n)
        (hfr n (by rw [hmem]; exact List.mem_cons_self n []))]
      rw [matchFrags, matchEpilogue_endpoint_same _ _ _ _ _ (chainP_endpoint_last ic pat _)]
      rw [show binds val [PFrag.param n] = [(n, val n)] from rfl]
      rfl
  | f, g :: rest, parent, res, hok, hnd, hfr, hlc, hvc => by
    cases f with
    | lit s =>
      have hokl : s ≠ [] ∧ '/' ∉ s ∧ s.head? ≠ some ':' ∧ s.head? ≠ some '*'
          ∧ s.head? ≠ some '(' ∧ s.head? ≠ some ')' := hok (PFrag.lit s) (by simp)
      have hdc : isDoubleColon s = false := isDoubleColon_of_head_ne s hokl.2.2.1
      have hfm : (PFrag.lit s :: g :: rest).filterMap paramName?
          = (g :: rest).filterMap paramName? :=
        List.filterMap_cons_none rfl
      have hnd' : ((g :: rest).filterMap paramName?).Nodup := hfm ▸ hnd
      have hfr' : ∀ m ∈ (g :: rest).filterMap paramName?, lookupL res.Params m = none :=
        fun m hm => hfr m (hfm ▸ hm)
      rw [List.map_cons, matchFrags]
      simp only [expFrag]
      rw [show edgeOf ic (PFrag.lit s) = Edge.lit (normFrag s ic) from rfl,
        normFrag_of_not_dc s ic hdc]
      rw [matchNode_attached_lit re parent _ _ hlc]
      simp only []
      first
      | rw [if_neg (show ¬((false : Bool) = true) from by simp)]
      | rw [if_neg (show ¬False from fun hq => hq)]
      | skip
      rw [chainP_cons_cons]
      rw [matchFrags_chain re tsr fpr ic pth pat val g rest (mkN (PFrag.lit s)) res
        (fun x hx => hok x (by simp [hx])) hnd' hfr'
        (mkN_literalChildren _) (mkN_varyChild _)]
      rfl
    | param n =>
      have hfm : (PFrag.param n :: g :: rest).filterMap paramName?
          = n :: (g :: rest).filterMap paramName? :=
        List.filterMap_cons_some rfl
      have hnd2 : (n :: (g :: rest).filterMap paramName?).Nodup := hfm ▸ hnd
      have hnd' : ((g :: rest).filterMap paramName?).Nodup := (List.nodup_cons.mp hnd2).2
      have hnmem : n ∉ (g :: rest).filterMap paramName? := (List.nodup_cons.mp hnd2).1
      have hfrn : lookupL res.Params n = none :=
        hfr n (by rw [hfm]; exact List.mem_cons_self n _)
      have hfr' : ∀ m ∈ (g :: rest).filterMap paramName?,
          lookupL (res.Params ++ [(n, val n)]) m = none := by
        intro m hm
        rw [lookupL_append_none _ _ _ (hfr m (by rw [hfm]; exact List.mem_cons_of_mem n hm)),
          lookupL_singleton, if_neg (fun he => hnmem (by rw [he]; exact hm))]
      rw [List.map_cons, matchFrags]
      simp only [expFrag]
      rw [show edgeOf ic (PFrag.param n) = Edge.vary from rfl]
      rw [matchNode_attached_vary re parent _ _ hlc (chainP_regex ic pat _ _)]
      simp only []
      first
      | rw [if_pos (show (true : Bool) = true from rfl)]
      | rw [if_pos True.intro]
      | skip
      first
      | rw [if_neg (by simp [chainP_wildcard])]
      | skip
      first
      | rw [chainP_name_param]
      | skip
      rw [mapSet_append_fresh res.Params n (val n) hfrn]
      rw [chainP_cons_cons]
      rw [matchFrags_chain re tsr fpr ic pth pat val g rest (mkN (PFrag.param n))
        { res with Params := res.Params ++ [(n, val n)] }
        (fun x hx => hok x (by simp [hx])) hnd' hfr'
        (mkN_literalChildren _) (mkN_varyChild _)]
      rw [show binds val (PFrag.param n :: g :: rest)
          = (n, val n) :: binds val (g :: rest) from rfl]
      rw [show (res.Params ++ [(n, val n)]) ++ binds val (g :: rest)
          = res.Params ++ ((n, val n) :: binds val (g :: rest)) from by
        rw [List.append_assoc]; rfl]
      rfl

theorem cds_cons_ne (c : Char) (x : Str) (hc : c ≠ '/') :
    containsDSlash (c :: x) = containsDSlash x := by
  cases x with
  | nil => rfl
  | cons d r =>
    rw [containsDSlash]
    simp [hc]

theorem cds_append_slash (s t : Str) (hs : '/' ∉ s) (ht : containsDSlash t = false)
    (hh : t.head? ≠ some '/') : containsDSlash (s ++ '/' :: t) = false := by
  induction s with
  | nil =>
    cases t with
    | nil => rfl
    | cons c r =>
      simp only [List.head?_cons] at hh
      have hc : c ≠ '/' := fun h => hh (by rw [h])
      rw [List.nil_append, containsDSlash]
      simp [hc, ht]
  | cons c s' ih =>
    have hc : c ≠ '/' := fun h => hs (h ▸ List.mem_cons_self c s')
    have hs' : '/' ∉ s' := fun h => hs (List.mem_cons_of_mem c h)
    rw [List.cons_append, cds_cons_ne c _ hc]
    exact ih hs'

theorem joinSlash_clean : ∀ (l : List Str), (∀ s ∈ l, s ≠ [] ∧ '/' ∉ s) →
    containsDSlash (joinSlash l) = false ∧ (joinSlash l).head? ≠ some '/'
  | [], _ => ⟨rfl, by simp [joinSlash]⟩
  | [s], h => by
    obtain ⟨hne, hns⟩ := h s (by simp)
    refine ⟨containsDSlash_of_no_slash s hns, ?_⟩
    cases s with
    | nil => exact absurd rfl hne
    | cons c cs =>
      simp only [joinSlash, List.head?_cons]
      intro hc
      simp only [Option.some.injEq] at hc
      exact hns (hc ▸ List.mem_cons_self c cs)
  | s :: t :: rest, h => by
    obtain ⟨hne, hns⟩ := h s (by simp)
    obtain ⟨ih1, ih2⟩ := joinSlash_clean (t :: rest) (fun x hx => h x (by simp [hx]))
    rw [show joinSlash (s :: t :: rest) = s ++ '/' :: joinSlash (t :: rest) from rfl]
    refine ⟨cds_append_slash s _ hns ih1 ih2, ?_⟩
    cases s with
    | nil => exact absurd rfl hne
    | cons c cs =>
      simp only [List.cons_append, List.head?_cons]
      intro hc
      simp only [Option.some.injEq] at hc
      exact hns (hc ▸ List.mem_cons_self c cs)

theorem cds_path (l : List Str) (h : ∀ s ∈ l, s ≠ [] ∧ '/' ∉ s) :
    containsDSlash ('/' :: joinSlash l) = false := by
  obtain ⟨h1, h2⟩ := joinSlash_clean l h
  cases hj : joinSlash l with
  | nil => rfl
  | cons c rest =>
    rw [hj] at h1 h2
    simp only [List.head?_cons] at h2
    have hc : c ≠ '/' := fun hcc => h2 (by rw [hcc])
    rw [containsDSlash]
    simp [hc, h1]

theorem splitSlash_append_slash (s t : Str) (hs : '/' ∉ s) :
    splitSlash (s ++ '/' :: t) = s :: splitSlash t := by
  induction s with
  | nil => rw [List.nil_append, splitSlash_slash_cons]
  | cons c s' ih =>
    have hc : c ≠ '/' := fun h => hs (h ▸ List.mem_cons_self c s')
    have hs' : '/' ∉ s' := fun h => hs (List.mem_cons_of_mem c h)
    rw [List.cons_append]
    exact splitSlash_cons_of_ne c _ hc s' (splitSlash t) (ih hs')

theorem splitSlash_joinSlash : ∀ (l : List Str), l ≠ [] → (∀ s ∈ l, '/' ∉ s) →
    splitSlash (joinSlash l) = l
  | [], h, _ => absurd rfl h
  | [s], _, h => splitSlash_no_slash s (h s (by simp))
  | s :: t :: rest, _, h => by
    rw [show joinSlash (s :: t :: rest) = s ++ '/' :: joinSlash (t :: rest) from rfl,
      splitSlash_append_slash s _ (h s (by simp)),
      splitSlash_joinSlash (t :: rest) (by simp) (fun x hx => h x (by simp [hx]))]

theorem fragStr_ok (f : PFrag) (h : fragOK f) : fragStr f ≠ [] ∧ '/' ∉ fragStr f := by
  cases f with
  | lit s => exact ⟨h.1, h.2.1⟩
  | param n =>
    refine ⟨by simp [fragStr], ?_⟩
    simp only [fragStr]
    intro hm
    rcases List.mem_cons.mp hm with h1 | h2
    · exact absurd h1 (by decide)
    · have hw : isWordStr n = true := h
      simp only [isWordStr, Bool.and_eq_true, List.all_eq_true] at hw
      exact (isWordChar_ne_slash '/' (hw.2 '/' h2)) rfl

theorem expFrag_ok (val : Str → Str) (f : PFrag) (hok : fragOK f)
    (hval : ∀ n, paramName? f = some n → val n ≠ [] ∧ '/' ∉ val n) :
    expFrag val f ≠ [] ∧ '/' ∉ expFrag val f := by
  cases f with
  | lit s => exact ⟨hok.1, hok.2.1⟩
  | param n => exact hval n rfl

/-- `Define` of a catch-all-free, regex-free pattern on a fresh trie
builds exactly the chain, with the pattern recorded at the endpoint. -/
theorem Define_chain (opts : Options) (f : PFrag) (fs : List PFrag)
    (hok : ∀ g ∈ f :: fs, fragOK g) :
    Define (New opts) (patStr (f :: fs))
      = some ({ New opts with
            root := blankNode.setChildAt (edgeOf opts.IgnoreCase f)
              (chainP opts.IgnoreCase (patStr (f :: fs)) (f :: fs)) },
          (f :: fs).map (edgeOf opts.IgnoreCase)) := by
  have hstr : ∀ s ∈ (f :: fs).map fragStr, s ≠ [] ∧ '/' ∉ s := by
    intro s hs
    obtain ⟨g, hg, rfl⟩ := List.mem_map.mp hs
    exact fragStr_ok g (hok g hg)
  unfold Define
  rw [if_neg (by simp [show containsDSlash (patStr (f :: fs)) = false from cds_path _ hstr])]
  rw [show trimLeadingSlash (patStr (f :: fs)) = joinSlash ((f :: fs).map fragStr) from rfl]
  rw [splitSlash_joinSlash _ (by simp) (fun s hs => (hstr s hs).2)]
  rw [show (New opts).root = blankNode from rfl,
    show (New opts).ignoreCase = opts.IgnoreCase from rfl]
  rw [defineNode_chain opts.IgnoreCase f fs blankNode hok rfl rfl]
  simp only []
  rw [modifyAt_chain]
  rfl

/-- Trie with `/api/:type/:ID` registered, all options enabled. -/
def trieC5 : Trie :=
  ((Define (New defaultOptions) (str "/api/:type/:ID")).map Prod.fst).getD
    (New defaultOptions)

/-- C5: for every pattern without a catch-all (a list of literal and
plain named-parameter fragments), after registering it on a fresh trie,
matching its literal expansion — substituting a concrete non-empty,
separator-free value for each parameter — returns the pattern's
endpoint node (the node `Define` returned) with the parameter mapping
exactly the substituted values; concretely, after
`Define("/api/:type/:ID")`, `Match("/api/user/123")` matches that
endpoint with `{type: "user", ID: "123"}`, while `Match("/api/user")`
and `Match("/api/user/123/comments")` miss. -/
theorem C5_literal_expansion_roundtrip :
    (∀ (opts : Options) (f : PFrag) (fs : List PFrag) (val : Str → Str)
      (re : Str → Str → Bool) (t : Trie) (path : List Edge),
      (∀ g ∈ f :: fs, fragOK g) →
      (∀ g ∈ f :: fs, ∀ n, paramName? g = some n → val n ≠ [] ∧ '/' ∉ val n) →
      ((f :: fs).filterMap paramName?).Nodup →
      Define (New opts) (patStr (f :: fs)) = some (t, path) →
      Match re t (expPath (f :: fs) val)
        = { Node := t.root.get? path, Params := binds val (f :: fs), FPR := [], TSR := [] }
      ∧ (t.root.get? path).isSome = true)
    ∧ (Match reNone trieC5 (str "/api/user/123")).Node.map Node.pattern
        = some (str "/api/:type/:ID")
    ∧ (Match reNone trieC5 (str "/api/user/123")).Params
        = [(str "type", str "user"), (str "ID", str "123")]
    ∧ Match reNone trieC5 (str "/api/user")
        = { Node := none, Params := [(str "type", str "user")], FPR := [], TSR := [] }
    ∧ Match reNone trieC5 (str "/api/user/123/comments")
        = { Node := none, Params := [(str "type", str "user"), (str "ID", str "123")],
            FPR := [], TSR := [] } := by
  refine ⟨?_, ?_, ?_, ?_, ?_⟩
  · intro opts f fs val re t path hok hval hnd hdef
    rw [Define_chain opts f fs hok] at hdef
    simp only [Option.some.injEq, Prod.mk.injEq] at hdef
    obtain ⟨ht, hp⟩ := hdef
    subst ht hp
    have hexp : ∀ s ∈ (f :: fs).map (expFrag val), s ≠ [] ∧ '/' ∉ s := by
      intro s hs
      obtain ⟨g, hg, rfl⟩ := List.mem_map.mp hs
      exact expFrag_ok val g (hok g hg) (hval g hg)
    have hcds : containsDSlash (expPath (f :: fs) val) = false := cds_path _ hexp
    constructor
    · simp only [Match]
      rw [fixPath_of_not_contains _ hcds, ite_self]
      rw [show trimLeadingSlash (expPath (f :: fs) val)
          = joinSlash ((f :: fs).map (expFrag val)) from rfl]
      rw [splitSlash_joinSlash _ (by simp) (fun s hs => (hexp s hs).2)]
      simp only [New]
      rw [matchFrags_chain re opts.TrailingSlashRedirect opts.FixedPathRedirect
        opts.IgnoreCase (expPath (f :: fs) val) (patStr (f :: fs)) val f fs blankNode
        emptyMatched hok hnd (fun m _ => rfl) rfl rfl]
      rw [get?_chain]
      rfl
    · simp only [New]
      rw [get?_chain]
      rfl
  · have h : fixPath (str "/api/user/123") = str "/api/user/123" :=
      fixPath_of_not_contains _ (by decide)
    simp only [Match, h]; rfl
  · have h : fixPath (str "/api/user/123") = str "/api/user/123" :=
      fixPath_of_not_contains _ (by decide)
    simp only [Match, h]; rfl
  · have h : fixPath (str "/api/user") = str "/api/user" :=
      fixPath_of_not_contains _ (by decide)
    simp only [Match, h]; rfl
  · have h : fixPath (str "/api/user/123/comments") = str "/api/user/123/comments" :=
      fixPath_of_not_contains _ (by decide)
    simp only [Match, h]; rfl

/-- The pattern fragments of `/api/:type/:ID`. -/
def fsC5 : List PFrag := [.lit (str "api"), .param (str "type"), .param (str "ID")]

/-- The substitution `{type ↦ user, ID ↦ 123}`. -/
def valC5 : Str → Str := fun n => if n = str "type" then str "user" else str "123"

/-- The endpoint path of `Define("/api/:type/:ID")` on a fresh default
trie. -/
def pathC5 : List Edge :=
  ((Define (New defaultOptions) (str "/api/:type/:ID")).map (fun x => x.2)).getD []

/-- C5 witness: the general clause applied to the pattern
`/api/:type/:ID` and the substitution `{type ↦ user, ID ↦ 123}`. -/
theorem C5_witness :
    Match reNone trieC5 (expPath fsC5 valC5)
      = { Node := trieC5.root.get? pathC5, Params := binds valC5 fsC5,
          FPR := [], TSR := [] }
    ∧ (trieC5.root.get? pathC5).isSome = true :=
  C5_literal_expansion_roundtrip.1 defaultOptions (.lit (str "api"))
    [.param (str "type"), .param (str "ID")] valC5 reNone trieC5 pathC5
    (by intro g hg; fin_cases hg <;> decide)
    (by
      intro g hg n heq
      fin_cases hg <;> simp only [paramName?] at heq
      · exact absurd heq (by simp)
      · injection heq with hn
        subst hn
        exact ⟨by decide, by decide⟩
      · injection heq with hn
        subst hn
        exact ⟨by decide, by decide⟩)
    (by decide)
    rfl
